import Mathlib

/-!
# Verification of the keyrxng.xyz SEO-audit core (`scripts/seo-audit.ts`)

This file is a shallow embedding, in Lean 4, of the algorithmic core of the
repository's SEO-audit script: term normalization and stemming, tokenization,
readability scoring, syllable counting, link classification, per-document
warning emission, data-only-directory exclusion, and the enhanced TF-IDF
engine with canonical surface-form resolution.

Strings are handled through their underlying character lists (`String.data`),
so every definition is executable and concrete instances can be settled by
`decide`.  JavaScript `Map`s are embedded as association lists with the
`Map.get`/`Map.set` semantics (update-in-place for an existing key, append
otherwise); JavaScript `Set` iteration is embedded as first-occurrence
deduplication.  Floating-point score arithmetic is embedded as exact real
arithmetic (`ℝ`, `Real.log`); quantities whose claims only concern structure
(counts, flooring, absence of division by zero) are embedded over `ℚ`.
-/

/-! ## Character-level helpers (JS semantics) -/

/-- The characters matched by the JavaScript regexp class `\s`
(the common ones; exotic Unicode space characters are not produced by the
inputs under analysis). -/
def jsWsChar (c : Char) : Bool :=
  c == ' ' || c == '\t' || c == '\n' || c == '\r' || c == '\x0b' || c == '\x0c'

/-- Test for a lowercase ASCII letter `a`–`z` (JS regexp `[a-z]`). -/
def lowerAZ (c : Char) : Bool := 'a' ≤ c && c ≤ 'z'

/-- Test for an ASCII digit (JS regexp `\d`). -/
def digitChar (c : Char) : Bool := '0' ≤ c && c ≤ '9'

/-- JS `String.prototype.trim` on a character list: drop whitespace from both
ends. -/
def trimChars (l : List Char) : List Char :=
  ((l.dropWhile jsWsChar).reverse.dropWhile jsWsChar).reverse

/-- Maximal runs of characters satisfying `p`, in order; used to embed
`split(/\s+/).filter(Boolean)`-style tokenizations (`p` = not whitespace). -/
def runsGo (p : Char → Bool) (cur : List Char) : List Char → List (List Char)
  | [] => if cur.isEmpty then [] else [cur.reverse]
  | c :: rest =>
      if p c then runsGo p (c :: cur) rest
      else if cur.isEmpty then runsGo p [] rest
      else cur.reverse :: runsGo p [] rest

/-- Maximal runs of characters satisfying `p`. -/
def splitRuns (p : Char → Bool) (l : List Char) : List (List Char) :=
  runsGo p [] l

/-- Lowercase a character list (JS `toLowerCase`, ASCII-faithful). -/
def lowerChars (l : List Char) : List Char := l.map Char.toLower

/-! ## The Porter stemmer

`scripts/seo-audit.ts` imports `stemmer` (the npm package `stemmer`, a
Porter stemmer implemented with anchored lazy regexes).  `normalizeTerm`
calls it on every token of length ≥ 3, so the stemmer's behaviour decides
the normalization claims.  The definitions below embed that dependency's
algorithm step for step: the anchored lazy regex `^(.+?)(s₁|…|sₖ)$` is the
longest listed proper suffix; the measure regexes (`gt0`, `gt1`, `eq1`,
`vowelInStem`, `consonantLike`) reduce to the deterministic vowel/consonant
run classification in which `y` is a vowel exactly when it follows a
consonant (an initial lowercase `y` is temporarily replaced by `Y`, a
consonant, as in the package). -/

/-- Membership in `a e i o u`. -/
def isAeiou (c : Char) : Bool :=
  c == 'a' || c == 'e' || c == 'i' || c == 'o' || c == 'u'

/-- Membership in `a e i o u y`. -/
def isAeiouy (c : Char) : Bool := isAeiou c || c == 'y'

/-- Vowel/consonant classification of each position: a character is a vowel
iff it is in `aeiou`, or is `y` directly after a consonant.  The initial
`prev` flag is `true` so that a leading `y` counts as a consonant. -/
def classifyGo (prev : Bool) : List Char → List Bool
  | [] => []
  | c :: rest =>
      let v := isAeiou c || (c == 'y' && !prev)
      v :: classifyGo v rest

/-- Porter measure `m`: the number of vowel-run → consonant-run transitions. -/
def porterM (l : List Char) : Nat :=
  let cls := classifyGo true l
  ((cls.zip cls.tail).filter (fun p => p.1 && !p.2)).length

/-- Regex `gt0` (`^C?VC`): measure at least 1. -/
def gt0 (l : List Char) : Bool := 1 ≤ porterM l

/-- Regex `gt1` (`^C?(VC){2,}`): measure at least 2. -/
def gt1 (l : List Char) : Bool := 2 ≤ porterM l

/-- Regex `eq1` (`^C?VCV?$`): measure exactly 1. -/
def eq1 (l : List Char) : Bool := porterM l == 1

/-- Regex `vowelInStem` (`^C?[aeiouy]`): some position classifies as vowel. -/
def vowelInStem (l : List Char) : Bool := (classifyGo true l).any id

/-- Regex `consonantLike` (`^C V [^aeiouwxy]$`): consonant run, then a single
vowel, then a final consonant other than `w`, `x`, `y`. -/
def consonantLike (l : List Char) : Bool :=
  match l.reverse with
  | last :: snd :: revPre =>
      (match revPre.reverse with
       | [] => false
       | p0 :: ptail =>
           !isAeiou p0 && ptail.all (fun c => !isAeiouy c) &&
           isAeiouy snd &&
           !(isAeiou last || last == 'w' || last == 'x' || last == 'y'))
  | _ => false

/-- Regex `([^aeiouylsz])\1$`: ends in a doubled consonant other than
`l`, `s`, `z`. -/
def doubleCons (l : List Char) : Bool :=
  match l.reverse with
  | a :: b :: _ =>
      a == b && !(isAeiou a || a == 'y' || a == 'l' || a == 's' || a == 'z')
  | _ => false

/-- Drop the last `n` characters. -/
def dropLastN (l : List Char) (n : Nat) : List Char := l.take (l.length - n)

/-- Test that `s` is a suffix of `l`. -/
def sufIs (l s : List Char) : Bool := s.isSuffixOf l

/-- Longest listed suffix of `v` that leaves a non-empty stem, together with
its replacement — the semantics of the package's anchored lazy regex
`^(.+?)(s₁|…|sₖ)$`. -/
def bestSuffix (v : List Char) : List (List Char × List Char) →
    Option (List Char × List Char)
  | [] => none
  | (suf, rep) :: rest =>
      let tailBest := bestSuffix v rest
      if sufIs v suf && suf.length < v.length then
        match tailBest with
        | some (bsuf, brep) =>
            if bsuf.length < suf.length then some (suf, rep) else some (bsuf, brep)
        | none => some (suf, rep)
      else tailBest

/-- Step 2 suffix table of the `stemmer` package. -/
def step2List : List (List Char × List Char) :=
  [("ational".data, "ate".data), ("tional".data, "tion".data),
   ("enci".data, "ence".data), ("anci".data, "ance".data),
   ("izer".data, "ize".data), ("bli".data, "ble".data),
   ("alli".data, "al".data), ("entli".data, "ent".data),
   ("eli".data, "e".data), ("ousli".data, "ous".data),
   ("ization".data, "ize".data), ("ation".data, "ate".data),
   ("ator".data, "ate".data), ("alism".data, "al".data),
   ("iveness".data, "ive".data), ("fulness".data, "ful".data),
   ("ousness".data, "ous".data), ("aliti".data, "al".data),
   ("iviti".data, "ive".data), ("biliti".data, "ble".data),
   ("logi".data, "log".data)]

/-- Step 3 suffix table of the `stemmer` package. -/
def step3List : List (List Char × List Char) :=
  [("icate".data, "ic".data), ("ative".data, [] ), ("alize".data, "al".data),
   ("iciti".data, "ic".data), ("ical".data, "ic".data),
   ("ful".data, []), ("ness".data, [])]

/-- Step 4 suffix list of the `stemmer` package (replacement is deletion). -/
def step4List : List (List Char × List Char) :=
  [("al".data, []), ("ance".data, []), ("ence".data, []), ("er".data, []),
   ("ic".data, []), ("able".data, []), ("ible".data, []), ("ant".data, []),
   ("ement".data, []), ("ment".data, []), ("ent".data, []), ("ou".data, []),
   ("ism".data, []), ("ate".data, []), ("iti".data, []), ("ous".data, []),
   ("ive".data, []), ("ize".data, [])]

/-- Porter step 1a: `sses`/`ies` lose two characters, a final `s` after a
non-`s` is dropped. -/
def step1a (v : List Char) : List Char :=
  if (sufIs v "sses".data && 5 ≤ v.length) || (sufIs v "ies".data && 4 ≤ v.length) then
    dropLastN v 2
  else if 3 ≤ v.length && v.getLast? == some 's' &&
      !((dropLastN v 1).getLast? == some 's') then
    dropLastN v 1
  else v

/-- Porter step 1b second phase: after removing `ed`/`ing`, restore `e` after
`at`/`bl`/`iz`, undouble a repeated consonant, or add `e` after a short
`cvc` stem. -/
def step1bPost (v : List Char) : List Char :=
  if sufIs v "at".data || sufIs v "bl".data || sufIs v "iz".data then v ++ ['e']
  else if doubleCons v then dropLastN v 1
  else if consonantLike v then v ++ ['e']
  else v

/-- Porter step 1b: `eed` (measure > 0) loses a character; otherwise `ed` or
`ing` is removed when the stem contains a vowel, followed by the restoration
phase. -/
def step1b (v : List Char) : List Char :=
  if sufIs v "eed".data && 4 ≤ v.length then
    (if gt0 (dropLastN v 3) then dropLastN v 1 else v)
  else if sufIs v "ed".data && 3 ≤ v.length && vowelInStem (dropLastN v 2) then
    step1bPost (dropLastN v 2)
  else if sufIs v "ing".data && 4 ≤ v.length && vowelInStem (dropLastN v 3) then
    step1bPost (dropLastN v 3)
  else v

/-- Porter step 1c: a final `y` after a stem containing a vowel becomes `i`. -/
def step1c (v : List Char) : List Char :=
  if v.getLast? == some 'y' && 2 ≤ v.length && vowelInStem (dropLastN v 1) then
    dropLastN v 1 ++ ['i']
  else v

/-- Porter step 2: replace the longest listed suffix when the stem has
measure > 0. -/
def step2 (v : List Char) : List Char :=
  match bestSuffix v step2List with
  | some (suf, rep) =>
      let stem := dropLastN v suf.length
      if gt0 stem then stem ++ rep else v
  | none => v

/-- Porter step 3: as step 2 with its own table. -/
def step3 (v : List Char) : List Char :=
  match bestSuffix v step3List with
  | some (suf, rep) =>
      let stem := dropLastN v suf.length
      if gt0 stem then stem ++ rep else v
  | none => v

/-- Porter step 4: drop the longest listed suffix when the stem has
measure > 1; when no listed suffix matches at all, a final `sion`/`tion`
loses its `ion` under the same measure condition. -/
def step4 (v : List Char) : List Char :=
  match bestSuffix v step4List with
  | some (suf, _) =>
      let stem := dropLastN v suf.length
      if gt1 stem then stem else v
  | none =>
      if sufIs v "ion".data && 5 ≤ v.length &&
          ((dropLastN v 3).getLast? == some 's' || (dropLastN v 3).getLast? == some 't') then
        (if gt1 (dropLastN v 3) then dropLastN v 3 else v)
      else v

/-- Porter step 5a: drop a final `e` when the stem has measure > 1, or
measure 1 without the short `cvc` shape. -/
def step5a (v : List Char) : List Char :=
  if v.getLast? == some 'e' && 2 ≤ v.length then
    let stem := dropLastN v 1
    if gt1 stem || (eq1 stem && !consonantLike stem) then stem else v
  else v

/-- Porter step 5b: undouble a final `ll` when the measure is > 1. -/
def step5b (v : List Char) : List Char :=
  if gt1 v && sufIs v "ll".data then dropLastN v 1 else v

/-- The `stemmer` npm package: lowercase, leave words shorter than 3
characters alone, temporarily mark a leading `y` as the consonant `Y`, apply
Porter steps 1a–5b, restore the leading `y`. -/
def stemmer (input : String) : String :=
  let v0 := lowerChars input.data
  if v0.length < 3 then ⟨v0⟩
  else
    let yMark := v0.head? == some 'y'
    let v1 := if yMark then 'Y' :: v0.tail else v0
    let v := step5b (step5a (step4 (step3 (step2 (step1c (step1b (step1a v1)))))))
    let vf := if yMark then 'y' :: v.tail else v
    ⟨vf⟩

/-! ## `normalizeTerm` (seo-audit.ts lines 727–737) -/

/-- The cleanup phase of `normalizeTerm`:
`t.toLowerCase().replace(/[^a-z0-9\s]/g, "").trim()`. -/
def cleanTerm (t : String) : String :=
  ⟨trimChars ((lowerChars t.data).filter
      (fun c => lowerAZ c || digitChar c || jsWsChar c))⟩

/-- JS `/^\d+$/`: non-empty and all digits. -/
def digitsOnly (s : String) : Bool :=
  !s.data.isEmpty && s.data.all digitChar

/-- Embedding of `normalizeTerm`: cleanup, return short or numeric tokens unchanged,
otherwise stem.  (The `try`/`catch` around the stemmer cannot fire in this
total embedding.) -/
def normalizeTerm (t : String) : String :=
  let s := cleanTerm t
  if s == "" then ""
  else if digitsOnly s || s.data.length ≤ 2 then s
  else stemmer s


/-! ## Stopwords and tokenization (seo-audit.ts lines 196–218, 504–515) -/

/-- The `EXTRA_STOPWORDS` set from seo-audit.ts. -/
def EXTRA_STOPWORDS : List String :=
  ["a","about","above","after","again","against","all",
   "am","an","and","any","are","as","at","be","because",
   "been","before","being","below","between","both","but",
   "by","could","did","do","does","doing","down","during",
   "each","few","for","from","further","had","has","have",
   "having","he","her","here","hers","herself","him","himself",
   "his","how","i","if","in","into","is","it","its","itself",
   "just","me","more","most","my","myself","no","nor","not","now","of",
   "off","on","once","only","or","other","our","ours","ourselves","out",
   "over","own","same","she","should","so","some","such","than","that",
   "the","their","theirs","them","themselves","then","there","these","they",
   "this","those","through","to","too","under","until","up","very","was","we",
   "were","what","when","where","which","while","who","whom","why","with","you",
   "your","yours","yourself","yourselves",
   "https","http","www","com","net","org","io","dev",
   "github","docs","doc","api","readme","license","faq",
   "png","jpg","jpeg","gif","webp","svg","pdf","xml","rss",
   "js","ts","tsx","jsx","css","html","md","mdx","astro","json",
   "import","export","const","var","let","function","return","class","interface",
   "npm","yarn","pnpm","node","bun","sitemap","og","meta","link","href","src","alt",
   "title","description","pr","ci","cd"]

/-- The punctuation class replaced by spaces in `toWords`. -/
def punctChars : List Char :=
  ['\x60', '~', '!', '@', '#', '$', '%', '^', '&', '*', '(', ')', '_', '+',
   '=', '\x7b', '\x7d', '[', ']', '|', '\x5c', ':', ';', '\x22', '\x27',
   '<', '>', ',', '.', '?', '/', '-']

/-- JS `/[a-z]/.test(w)`. -/
def hasLowerAlpha (s : String) : Bool := s.data.any lowerAZ

/-- Embedding of `toWords`: lowercase, punctuation → spaces, split on whitespace, trim,
then the five filters of the source in order. -/
def toWords (raw : String) : List String :=
  let lowered := lowerChars raw.data
  let replaced := lowered.map (fun c => if punctChars.contains c then ' ' else c)
  let pieces := (splitRuns (fun c => !jsWsChar c) replaced).map
      (fun l => ((⟨trimChars l⟩ : String)))
  ((((pieces.filter (fun w => !(w == ""))).filter
      (fun w => 1 < w.data.length)).filter
      (fun w => !EXTRA_STOPWORDS.contains w)).filter
      (fun w => hasLowerAlpha w)).filter
      (fun w => !digitsOnly w)

/-! ## Syllables and readability (seo-audit.ts lines 536–568) -/

/-- Embedding of `countSyllables`: keep only letters of the lowercased word, `0` for an
empty residue, otherwise count vowel-group starts (`aeiouy`, `y` included),
drop one for a trailing `e` when the count exceeds 1, floor at 1. -/
def countSyllables (word : String) : Nat :=
  let w := (lowerChars word.data).filter lowerAZ
  if w.isEmpty then 0
  else
    let st := w.foldl (fun (p : Bool × Nat) ch =>
      let isV := isAeiouy ch
      (isV, if isV && !p.1 then p.2 + 1 else p.2)) (false, 0)
    let c1 := st.2
    let c2 := if w.getLast? == some 'e' && 1 < c1 then c1 - 1 else c1
    max 1 c2

/-- Declarative vowel-group count: positions holding a vowel whose
predecessor (if any) is not a vowel. -/
def vowelRuns (l : List Char) : Nat :=
  ((l.zip (false :: l.map isAeiouy)).filter (fun p => isAeiouy p.1 && !p.2)).length

/-- Prepend a character to the first piece of a piece list. -/
def consHead (c : Char) : List (List Char) → List (List Char)
  | [] => [[c]]
  | h :: t => (c :: h) :: t

/-- Right-to-left scanner for `split(/[.!?]+\s+/)`: returns the pieces plus
two flags — "suffix starts with whitespace" and "suffix starts with a
delimiter run followed by whitespace" (i.e. with a separator match). -/
def sentSplitGo : List Char → (List (List Char) × Bool × Bool)
  | [] => ([[]], false, false)
  | c :: rest =>
      let r := sentSplitGo rest
      if c == '.' || c == '!' || c == '?' then
        if r.2.1 then
          (match r.1 with
           | [] => ([[]], false, true)
           | h :: t => ([] :: h.dropWhile jsWsChar :: t, false, true))
        else if r.2.2 then (r.1, false, true)
        else (consHead c r.1, false, false)
      else if jsWsChar c then (consHead c r.1, true, false)
      else (consHead c r.1, false, false)

/-- Embedding of `text.split(/[.!?]+\s+/)`. -/
def sentencePieces (text : String) : List String :=
  (sentSplitGo text.data).1.map (fun l => ((⟨l⟩ : String)))

/-- The raw-ish word list of `computeReadability`: lowercase, non-letters
(except whitespace) → spaces, split on whitespace, drop empties. -/
def readabilityWords (text : String) : List String :=
  let mapped := (lowerChars text.data).map
      (fun c => if lowerAZ c || jsWsChar c then c else ' ')
  (splitRuns (fun c => !jsWsChar c) mapped).map (fun l => ((⟨l⟩ : String)))

/-- Result record of `computeReadability`; score arithmetic is embedded over
`ℚ` (the source computes in floating point). -/
structure Readability where
  fleschReadingEase : ℚ
  fleschKincaidGrade : ℚ
  wordCount : Nat
  sentenceCount : Nat
deriving Repr, DecidableEq

/-- Embedding of `computeReadability`: sentence count floored at 1, syllables-per-word
ratio defined as 0 for an empty word list, Flesch Reading Ease and
Flesch-Kincaid Grade from the standard formulas. -/
def computeReadability (text : String) : Readability :=
  let sentences := (sentencePieces text).filter (fun s => !(s == ""))
  let words := readabilityWords text
  let wordCount := words.length
  let sentenceCount := max 1 sentences.length
  let syllableCount := (words.map countSyllables).sum
  let wordsPerSentence : ℚ := (wordCount : ℚ) / (sentenceCount : ℚ)
  let syllablesPerWord : ℚ :=
    if wordCount = 0 then 0 else (syllableCount : ℚ) / (wordCount : ℚ)
  { fleschReadingEase := 206835/1000 - 1015/1000 * wordsPerSentence - 846/10 * syllablesPerWord
    fleschKincaidGrade := 39/100 * wordsPerSentence + 118/10 * syllablesPerWord - 1559/100
    wordCount := wordCount
    sentenceCount := sentenceCount }

/-! ## Link classification (seo-audit.ts lines 460–469) -/

/-- First character test (the source only ever tests single-character
prefixes). -/
def startsWithCh (s : String) (c : Char) : Bool := s.data.head? == some c

/-- Scheme characters after the first (RFC 3986 / WHATWG). -/
def isSchemeTail (c : Char) : Bool :=
  lowerAZ c || ('A' ≤ c && c ≤ 'Z') || digitChar c || c == '+' || c == '-' || c == '.'

/-- ASCII letter. -/
def isAsciiAlpha (c : Char) : Bool := lowerAZ c || ('A' ≤ c && c ≤ 'Z')

/-- Split a character list at its first `:`. -/
def splitAtColon : List Char → Option (List Char × List Char)
  | [] => none
  | c :: rest =>
      if c == ':' then some ([], rest)
      else (splitAtColon rest).map (fun p => (c :: p.1, p.2))

/-- Schemes the WHATWG URL standard treats as special (non-empty host
required). -/
def specialSchemes : List (List Char) :=
  ["http".data, "https".data, "ftp".data, "ws".data, "wss".data]

/-- Modelled from the spec: the host produced by the JS runtime's WHATWG
`new URL(href, base).host` (the URL parser is a platform builtin, not part
of the repository).  Per the spec, a href "parseable as an absolute URL"
contributes its own host; anything else resolves against the base and
therefore carries the base's host; non-special schemes (e.g. `mailto:`)
yield an empty host; a special scheme with an empty authority fails to
parse (`none`).  Userinfo/port syntax and exotic relative forms are outside
the hrefs the audit scans and are not modelled. -/
def urlHostResolve (href : String) (baseHost : String) : Option String :=
  match splitAtColon href.data with
  | some (scheme, rest) =>
      (match scheme with
       | [] => some baseHost
       | s0 :: stail =>
           if isAsciiAlpha s0 && stail.all isSchemeTail then
             if "//".data.isPrefixOf rest then
               let auth := (rest.drop 2).takeWhile
                   (fun c => !(c == '/' || c == '?' || c == '#'))
               if auth.isEmpty && specialSchemes.contains (lowerChars scheme) then none
               else some ((⟨lowerChars auth⟩ : String))
             else some ""
           else some baseHost)
  | none => some baseHost

/-- Embedding of `isExternal` (seo-audit.ts lines 460–469): guard empty and `/`/`#`/`.`
prefixes, resolve against the fixed base `http://example.com`, external iff
the resolved host is non-empty and differs from `example.com`. -/
def isExternal (href : String) : Bool :=
  if href == "" then false
  else if startsWithCh href '/' || startsWithCh href '#' || startsWithCh href '.' then false
  else
    match urlHostResolve href "example.com" with
    | none => false
    | some h => !(h == "") && !(h == "example.com")

/-- The classification stated by the specification (for comparison with the
code): external iff the href itself — no base — parses as an absolute URL
with a non-empty host different from the audited site's own host
`keyrxng.xyz` (astro.config: `site: 'https://keyrxng.xyz'`); hrefs starting
with `/`, `#`, `.` are always internal.  Resolving against the empty base
host makes every non-absolute href internal. -/
def specClaimExternal (href : String) : Bool :=
  if href == "" then false
  else if startsWithCh href '/' || startsWithCh href '#' || startsWithCh href '.' then false
  else
    match urlHostResolve href "" with
    | none => false
    | some h => !(h == "") && !(h == "keyrxng.xyz")


/-! ## Per-document warnings (seo-audit.ts lines 682–687) -/

/-- JS truthiness of an optional string (`undefined` and `""` are falsy). -/
def jsTruthy (o : Option String) : Bool :=
  match o with
  | none => false
  | some s => !(s == "")

/-- The warning pushes of `analyzeFile`, in source order: missing title,
missing description, missing H1, description length outside [50,160]
(message carries the length), title length outside [15,65] (message carries
the length). -/
def docWarnings (title description : Option String) (h1 : List String) : List String :=
  let a1 := if jsTruthy title then ([] : List String) else ["Missing <title>"]
  let a2 := a1 ++ (if jsTruthy description then [] else ["Missing meta description"])
  let a3 := a2 ++ (if h1.length == 0 then ["Missing H1 heading"] else [])
  let dlen := (description.getD "").data.length
  let a4 := a3 ++
    (if jsTruthy description && (dlen < 50 || 160 < dlen) then
      ["Description length " ++ toString dlen ++ " (recommended 50-160)"] else [])
  let tlen := (title.getD "").data.length
  a4 ++
    (if jsTruthy title && (tlen < 15 || 65 < tlen) then
      ["Title length " ++ toString tlen ++ " (recommended 15-65)"] else [])

/-! ## Summary aggregation (seo-audit.ts lines 849–865) -/

/-- The per-document fields that feed the missing-metadata summary lists. -/
structure DocRecord where
  filePath : String
  title : Option String
  description : Option String
  h1 : List String

/-- Models Node's `path.relative(rootDir, p)` for the analyzed files, which
always live under the crawl root: strip the root plus separator. -/
def relPath (rootDir p : String) : String :=
  if (rootDir.data ++ ['/']).isPrefixOf p.data then
    ((⟨p.data.drop (rootDir.data.length + 1)⟩ : String))
  else p

/-- Embedding of `isDataOnlyJson`: a `.json` file under `competencies/` or
`technologies/` relative to the root. -/
def isDataOnlyJson (rootDir p : String) : Bool :=
  let rel := relPath rootDir p
  if rel == "" then false
  else
    sufIs rel.data ".json".data &&
    ("competencies/".data.isPrefixOf rel.data ||
     "technologies/".data.isPrefixOf rel.data)

/-- Embedding of `summary.pagesMissingTitle`: documents with a falsy title, minus
data-only JSON records. -/
def pagesMissingTitle (docs : List DocRecord) (rootDir : String) : List String :=
  ((docs.filter (fun d => !jsTruthy d.title)).map (fun d => d.filePath)).filter
    (fun p => !isDataOnlyJson rootDir p)

/-- Embedding of `summary.pagesMissingDescription`. -/
def pagesMissingDescription (docs : List DocRecord) (rootDir : String) : List String :=
  ((docs.filter (fun d => !jsTruthy d.description)).map (fun d => d.filePath)).filter
    (fun p => !isDataOnlyJson rootDir p)

/-- Embedding of `summary.pagesMissingH1`. -/
def pagesMissingH1 (docs : List DocRecord) (rootDir : String) : List String :=
  ((docs.filter (fun d => d.h1.length == 0)).map (fun d => d.filePath)).filter
    (fun p => !isDataOnlyJson rootDir p)

/-! ## The TF-IDF engine (seo-audit.ts lines 743–827) -/

/-- A `(document-id, term-sequence)` pair as consumed by
`computeTfidfEnhanced` and `canonicalizeCorpus`. -/
structure DocEntry where
  id : String
  terms : List String

/-- JS `Map.get`. -/
def jsGet {β : Type} : List (String × β) → String → Option β
  | [], _ => none
  | p :: ms, k => if p.1 == k then some p.2 else jsGet ms k

/-- JS `Map.set`: update the existing entry in place, else append. -/
def jsSet {β : Type} : List (String × β) → String → β → List (String × β)
  | [], k, v => [(k, v)]
  | p :: ms, k, v => if p.1 == k then (k, v) :: ms else p :: jsSet ms k v

/-- Keys of an association list. -/
def mapKeys {β : Type} (m : List (String × β)) : List String := m.map Prod.fst

/-- JS `Set` construction: first-occurrence deduplication. -/
def jsUniqueGo (acc : List String) : List String → List String
  | [] => acc
  | x :: xs => if acc.contains x then jsUniqueGo acc xs else jsUniqueGo (acc ++ [x]) xs

/-- Embedding of `new Set(l)` in iteration order. -/
def jsUnique (l : List String) : List String := jsUniqueGo [] l

/-- The non-empty normalizations of a document's terms
(`d.terms.map(normalizeTerm).filter(Boolean)`). -/
def docNorms (d : DocEntry) : List String :=
  (d.terms.map normalizeTerm).filter (fun s => !(s == ""))

/-- Embedding of `termDocFreq`: for each document, each distinct non-empty normalized
term is counted once. -/
def termDocFreq (docs : List DocEntry) : List (String × Nat) :=
  docs.foldl (fun m d =>
    (jsUnique (docNorms d)).foldl
      (fun m t => jsSet m t ((jsGet m t).getD 0 + 1)) m) []

/-- Document frequency of normalized term `t` (`termDocFreq.get(t) || 0`). -/
def dfOf (docs : List DocEntry) (t : String) : Nat :=
  (jsGet (termDocFreq docs) t).getD 0

/-- The corpus-wide surface map `normalized → (surface → count)` built by
both `computeTfidfEnhanced` (lines 750–760) and `canonicalizeCorpus`
(lines 804–813); the two source loops enumerate exactly the same updates. -/
def surfaceMapOf (docs : List DocEntry) : List (String × List (String × Nat)) :=
  docs.foldl (fun sm d =>
    d.terms.foldl (fun sm surf =>
      let norm := normalizeTerm surf
      if norm == "" then sm
      else
        let m := (jsGet sm norm).getD []
        jsSet sm norm (jsSet m surf ((jsGet m surf).getD 0 + 1))) sm) []

/-- Per-document term frequency over normalized terms (the `tf` map). -/
def docTF (terms : List String) : List (String × Nat) :=
  terms.foldl (fun tf t0 =>
    let t := normalizeTerm t0
    if t == "" then tf else jsSet tf t ((jsGet tf t).getD 0 + 1)) []

/-- The accumulated `tfidfScores` map: for every document and every term of
its `tf` map whose document frequency reaches `minDocFreq`, add
`score f df N`.  The score function is a parameter (the source computes
`(1 + Math.log(f)) * (Math.log((N + 1) / (df + 1)) + 1)` in floating
point; the claims instantiate `score` with the exact real-valued version). -/
def tfidfScores {S : Type} [AddCommMonoid S] (score : Nat → Nat → Nat → S)
    (docs : List DocEntry) (minDocFreq : Nat) : List (String × S) :=
  docs.foldl (fun sc d =>
    (docTF d.terms).foldl (fun sc p =>
      let df := dfOf docs p.1
      if df < minDocFreq then sc
      else jsSet sc p.1 ((jsGet sc p.1).getD 0 + score p.2 df docs.length)) sc) []

/-- The selection loop shared by `canonicalForm` and `canonicalizeCorpus`:
scan the surface entries keeping the highest count, breaking count ties by
strictly shorter surface (the empty initial `best` is always replaced
first). -/
def selStep (best p : String × Nat) : String × Nat :=
  if p.2 > best.2 || (p.2 == best.2 && (best.1 == "" || p.1.data.length < best.1.data.length))
  then p else best

/-- The whole selection scan, starting from `best = ""`, `bestCount = 0`. -/
def selLoop (entries : List (String × Nat)) : String × Nat :=
  entries.foldl selStep ("", 0)

/-- Embedding of `canonicalForm` inside `computeTfidfEnhanced` (lines 783–796). -/
def canonicalFormFn (docs : List DocEntry) (norm : String) : String :=
  match jsGet (surfaceMapOf docs) norm with
  | none => norm
  | some m =>
      let best := (selLoop m).1
      if best == "" then norm else best

/-- Sort entries by score descending (`arr.sort((a, b) => b.tfidf - a.tfidf)`). -/
def sortByScoreDesc {S : Type} [LinearOrder S] (l : List (String × S)) :
    List (String × S) :=
  l.mergeSort (fun a b => decide (b.2 ≤ a.2))

/-- Embedding of `computeTfidfEnhanced` (lines 743–801): accumulate scores, display each
normalized term through its canonical surface form, sort by score
descending, truncate to `topK`. -/
def computeTfidfEnhanced {S : Type} [AddCommMonoid S] [LinearOrder S]
    (score : Nat → Nat → Nat → S) (docs : List DocEntry)
    (topK minDocFreq : Nat) : List (String × S) :=
  let arr := (tfidfScores score docs minDocFreq).map
      (fun p => (canonicalFormFn docs p.1, p.2))
  (sortByScoreDesc arr).take topK

/-- Embedding of `canonicalizeCorpus` (lines 803–827): the canonical surface form of
every normalized term of the corpus, as a map. -/
def canonicalizeCorpus (docs : List DocEntry) : List (String × String) :=
  (surfaceMapOf docs).foldl (fun canonical q =>
    let best := (selLoop q.2).1
    jsSet canonical q.1 (if best == "" then q.1 else best)) []

/-- The exact-arithmetic TF-IDF score of the source:
`(1 + ln f) * (ln ((N + 1) / (df + 1)) + 1)`. -/
noncomputable def tfidfScore (f df n : Nat) : ℝ :=
  (1 + Real.log f) * (Real.log ((n + 1) / (df + 1)) + 1)


/-! ## Association-list lemmas for the JS `Map`/`Set` embedding -/

theorem jsGet_jsSet {β : Type} (m : List (String × β)) (k k' : String) (v : β) :
    jsGet (jsSet m k v) k' = if k' = k then some v else jsGet m k' := by
  induction m with
  | nil =>
      by_cases h : k' = k
      · simp [jsSet, jsGet, h]
      · have h2 : ¬k = k' := fun hh => h hh.symm
        simp [jsSet, jsGet, h, h2]
  | cons p ms ih =>
      by_cases hp : p.1 = k
      · by_cases h : k' = k
        · simp [jsSet, jsGet, hp, h]
        · have h2 : ¬k = k' := fun hh => h hh.symm
          have h3 : ¬p.1 = k' := by rw [hp]; exact h2
          simp [jsSet, jsGet, hp, h, h2, h3]
      · by_cases h1 : p.1 = k'
        · have h : ¬k' = k := fun hh => hp (h1.trans hh)
          simp [jsSet, jsGet, hp, h1, h]
        · simp [jsSet, jsGet, hp, h1, ih]

theorem jsGet_mem {β : Type} {m : List (String × β)} {k : String} {v : β}
    (h : jsGet m k = some v) : (k, v) ∈ m := by
  induction m with
  | nil => simp [jsGet] at h
  | cons p ms ih =>
      by_cases hp : p.1 = k
      · simp [jsGet, hp] at h
        have hpv : p = (k, v) := by
          cases p
          simp_all
        exact hpv ▸ List.mem_cons_self _ _
      · simp [jsGet, hp] at h
        exact List.mem_cons_of_mem _ (ih h)

theorem jsSet_mem_sub {β : Type} {m : List (String × β)} {k : String} {v : β}
    {q : String × β} (h : q ∈ jsSet m k v) : q ∈ m ∨ q = (k, v) := by
  induction m with
  | nil => simpa [jsSet] using h
  | cons p ms ih =>
      by_cases hp : p.1 = k
      · simp only [jsSet, if_pos (beq_iff_eq.mpr hp)] at h
        rcases List.mem_cons.mp h with h | h
        · right; exact h
        · left; exact List.mem_cons_of_mem _ h
      · simp only [jsSet, if_neg (fun hh => hp (beq_iff_eq.mp hh))] at h
        rcases List.mem_cons.mp h with h | h
        · left; simp [h]
        · rcases ih h with h' | h'
          · left; exact List.mem_cons_of_mem _ h'
          · right; exact h'

theorem jsSet_keys_sub {β : Type} (m : List (String × β)) (k : String) (v : β) :
    ∀ x ∈ mapKeys (jsSet m k v), x ∈ mapKeys m ∨ x = k := by
  intro x hx
  simp only [mapKeys, List.mem_map] at hx
  obtain ⟨q, hq, rfl⟩ := hx
  rcases jsSet_mem_sub hq with h | h
  · left
    exact List.mem_map_of_mem _ h
  · right
    rw [h]

theorem jsSet_keys_nodup {β : Type} {m : List (String × β)} (k : String) (v : β)
    (h : (mapKeys m).Nodup) : (mapKeys (jsSet m k v)).Nodup := by
  induction m with
  | nil => simp [jsSet, mapKeys]
  | cons p ms ih =>
      rw [mapKeys, List.map_cons, List.nodup_cons] at h
      by_cases hp : p.1 = k
      · have he : jsSet (p :: ms) k v = (k, v) :: ms := by
          simp [jsSet, hp]
        rw [he, mapKeys, List.map_cons, List.nodup_cons]
        exact ⟨by rw [← hp]; exact h.1, h.2⟩
      · have he : jsSet (p :: ms) k v = p :: jsSet ms k v := by
          simp [jsSet, hp]
        rw [he, mapKeys, List.map_cons, List.nodup_cons]
        constructor
        · intro hmem
          rcases jsSet_keys_sub ms k v _ (by simpa [mapKeys] using hmem) with h' | h'
          · exact h.1 (by simpa [mapKeys] using h')
          · exact hp h'
        · exact ih h.2

theorem jsGet_eq_some_of_mem {β : Type} {m : List (String × β)} {k : String} {v : β}
    (hn : (mapKeys m).Nodup) (h : (k, v) ∈ m) : jsGet m k = some v := by
  induction m with
  | nil => simp at h
  | cons p ms ih =>
      rw [mapKeys, List.map_cons, List.nodup_cons] at hn
      rcases List.mem_cons.mp h with h | h
      · simp [jsGet, ← h]
      · have hpk : ¬p.1 = k := by
          intro hk
          exact hn.1 (by rw [hk]; exact List.mem_map_of_mem _ h)
        simp only [jsGet, if_neg (fun hh => hpk (beq_iff_eq.mp hh))]
        exact ih hn.2 h

theorem jsUniqueGo_mem (acc l : List String) (t : String) :
    t ∈ jsUniqueGo acc l ↔ t ∈ acc ∨ t ∈ l := by
  induction l generalizing acc with
  | nil => simp [jsUniqueGo]
  | cons x xs ih =>
      by_cases hx : acc.contains x = true
      · rw [jsUniqueGo, if_pos hx, ih]
        have hxa : x ∈ acc := List.elem_iff.mp hx
        constructor
        · rintro (h | h)
          · exact Or.inl h
          · exact Or.inr (List.mem_cons_of_mem _ h)
        · rintro (h | h)
          · exact Or.inl h
          · rcases List.mem_cons.mp h with h | h
            · exact Or.inl (h ▸ hxa)
            · exact Or.inr h
      · rw [jsUniqueGo, if_neg hx, ih]
        simp only [List.mem_append, List.mem_singleton, List.mem_cons]
        tauto

theorem jsUniqueGo_nodup (acc l : List String) (h : acc.Nodup) :
    (jsUniqueGo acc l).Nodup := by
  induction l generalizing acc with
  | nil => simpa [jsUniqueGo]
  | cons x xs ih =>
      by_cases hx : acc.contains x = true
      · rw [jsUniqueGo, if_pos hx]
        exact ih acc h
      · rw [jsUniqueGo, if_neg hx]
        refine ih _ (List.Nodup.append h (List.nodup_singleton x) ?_)
        intro a ha hb
        rw [List.mem_singleton] at hb
        exact hx (List.elem_iff.mpr (hb ▸ ha))

theorem jsUnique_mem (l : List String) (t : String) : t ∈ jsUnique l ↔ t ∈ l := by
  simp [jsUnique, jsUniqueGo_mem]

theorem jsUnique_nodup (l : List String) : (jsUnique l).Nodup :=
  jsUniqueGo_nodup [] l List.nodup_nil

/-! ## `docTF` and `termDocFreq` characterizations -/

theorem docTF_go (t : String) (ht : ¬t = "") (l : List String) :
    ∀ tf : List (String × Nat),
      jsGet (List.foldl (fun tf t0 =>
        let s := normalizeTerm t0
        if s == "" then tf else jsSet tf s ((jsGet tf s).getD 0 + 1)) tf l) t =
      if (l.map normalizeTerm).count t = 0 then jsGet tf t
      else some ((jsGet tf t).getD 0 + (l.map normalizeTerm).count t) := by
  induction l with
  | nil => intro tf; simp
  | cons x xs ih =>
      intro tf
      rw [List.foldl_cons]
      by_cases hx : normalizeTerm x = ""
      · have hstep : (let s := normalizeTerm x;
            if s == "" then tf else jsSet tf s ((jsGet tf s).getD 0 + 1)) = tf := by
          simp [hx]
        rw [hstep, ih tf]
        have hne : ¬(normalizeTerm x == t) = true := by
          simp [hx]
          intro hc
          exact ht hc.symm
        simp [List.count_cons, hne]
      · have hstep : (let s := normalizeTerm x;
            if s == "" then tf else jsSet tf s ((jsGet tf s).getD 0 + 1)) =
            jsSet tf (normalizeTerm x) ((jsGet tf (normalizeTerm x)).getD 0 + 1) := by
          simp [hx]
        rw [hstep, ih]
        by_cases hxt : t = normalizeTerm x
        · subst hxt
          rw [jsGet_jsSet, if_pos rfl]
          have hcc : (List.map normalizeTerm (x :: xs)).count (normalizeTerm x) =
              (List.map normalizeTerm xs).count (normalizeTerm x) + 1 := by
            simp [List.count_cons]
          rw [hcc]
          by_cases hc0 : (List.map normalizeTerm xs).count (normalizeTerm x) = 0
          · simp [hc0]
          · rw [if_neg hc0, if_neg (by omega)]
            simp only [Option.getD_some, Option.some.injEq]
            omega
        · rw [jsGet_jsSet, if_neg hxt]
          have hcc : (List.map normalizeTerm (x :: xs)).count t =
              (List.map normalizeTerm xs).count t := by
            simp only [List.map_cons, List.count_cons]
            have : ¬(normalizeTerm x == t) = true := by
              simp
              intro hc
              exact hxt hc.symm
            simp [this]
          rw [hcc]

theorem docTF_get (terms : List String) (t : String) (ht : ¬t = "") :
    jsGet (docTF terms) t =
      if (terms.map normalizeTerm).count t = 0 then none
      else some ((terms.map normalizeTerm).count t) := by
  have := docTF_go t ht terms []
  rw [docTF]
  simpa [jsGet] using this

theorem incFold_get (U : List String) (hU : U.Nodup) :
    ∀ (m : List (String × Nat)) (t : String),
      jsGet (U.foldl (fun m t => jsSet m t ((jsGet m t).getD 0 + 1)) m) t =
      if t ∈ U then some ((jsGet m t).getD 0 + 1) else jsGet m t := by
  induction U with
  | nil => intro m t; simp
  | cons x U' ih =>
      intro m t
      rw [List.foldl_cons]
      rcases List.nodup_cons.mp hU with ⟨hxU, hU'⟩
      by_cases hxt : t = x
      · subst hxt
        rw [ih hU', if_neg hxU, jsGet_jsSet, if_pos rfl]
        simp
      · rw [ih hU', jsGet_jsSet, if_neg hxt]
        by_cases htU : t ∈ U'
        · rw [if_pos htU, if_pos (List.mem_cons_of_mem _ htU)]
        · rw [if_neg htU, if_neg (by simp [hxt, htU])]

theorem tdf_go (t : String) (L : List DocEntry) :
    ∀ m : List (String × Nat),
      jsGet (List.foldl (fun m d =>
        (jsUnique (docNorms d)).foldl
          (fun m t => jsSet m t ((jsGet m t).getD 0 + 1)) m) m L) t =
      if (L.filter (fun d => (docNorms d).contains t)).length = 0 then jsGet m t
      else some ((jsGet m t).getD 0 +
        (L.filter (fun d => (docNorms d).contains t)).length) := by
  induction L with
  | nil => intro m; simp
  | cons d L' ih =>
      intro m
      rw [List.foldl_cons, ih]
      have hinner := incFold_get (jsUnique (docNorms d)) (jsUnique_nodup _) m t
      by_cases hc : (docNorms d).contains t = true
      · have hmem : t ∈ jsUnique (docNorms d) :=
          (jsUnique_mem _ _).mpr (List.elem_iff.mp hc)
        rw [if_pos hmem] at hinner
        have hflt : (List.filter (fun d => (docNorms d).contains t) (d :: L')) =
            d :: L'.filter (fun d => (docNorms d).contains t) := by
          rw [List.filter_cons, if_pos hc]
        rw [hflt]
        by_cases h0 : (L'.filter (fun d => (docNorms d).contains t)).length = 0
        · rw [if_pos h0, hinner]
          simp only [List.length_cons, h0]
          simp
        · rw [if_neg h0, hinner, List.length_cons, if_neg (by omega)]
          simp only [Option.getD_some, Option.some.injEq]
          omega
      · have hmem : t ∉ jsUnique (docNorms d) := by
          intro hx
          exact hc (List.elem_iff.mpr ((jsUnique_mem _ _).mp hx))
        rw [if_neg hmem] at hinner
        have hflt : (List.filter (fun d => (docNorms d).contains t) (d :: L')) =
            L'.filter (fun d => (docNorms d).contains t) := by
          rw [List.filter_cons, if_neg hc]
        rw [hflt, hinner]

/-- The document frequency map realizes the claim's `df`: the number of
documents whose normalized term list contains `t`. -/
theorem dfOf_eq (docs : List DocEntry) (t : String) :
    dfOf docs t = (docs.filter (fun d => (docNorms d).contains t)).length := by
  rw [dfOf, termDocFreq, tdf_go t docs []]
  by_cases h0 : (docs.filter (fun d => (docNorms d).contains t)).length = 0
  · rw [if_pos h0, h0]
    rfl
  · rw [if_neg h0]
    simp [jsGet]

theorem mem_docNorms (d : DocEntry) (t : String) :
    t ∈ docNorms d ↔ ¬t = "" ∧ t ∈ d.terms.map normalizeTerm := by
  rw [docNorms]
  constructor
  · intro h
    rcases List.mem_filter.mp h with ⟨h1, h2⟩
    refine ⟨?_, h1⟩
    simpa using h2
  · intro h
    exact List.mem_filter.mpr ⟨h.2, by simpa using h.1⟩

/-! ## Key invariants of the folded maps -/

theorem foldl_keys_nodup {α β : Type} (f : List (String × β) → α → List (String × β))
    (hf : ∀ m a, (mapKeys m).Nodup → (mapKeys (f m a)).Nodup) (l : List α) :
    ∀ m, (mapKeys m).Nodup → (mapKeys (List.foldl f m l)).Nodup := by
  induction l with
  | nil => intro m hm; exact hm
  | cons a l' ih =>
      intro m hm
      rw [List.foldl_cons]
      exact ih _ (hf m a hm)

theorem foldl_entries_pred {α β : Type} (P : String × β → Prop)
    (f : List (String × β) → α → List (String × β))
    (hf : ∀ m a, (∀ q ∈ m, P q) → ∀ q ∈ f m a, P q) (l : List α) :
    ∀ m, (∀ q ∈ m, P q) → ∀ q ∈ List.foldl f m l, P q := by
  induction l with
  | nil => intro m hm; exact hm
  | cons a l' ih =>
      intro m hm
      rw [List.foldl_cons]
      exact ih _ (hf m a hm)

theorem docTF_keys_nodup (terms : List String) : (mapKeys (docTF terms)).Nodup := by
  rw [docTF]
  refine foldl_keys_nodup _ ?_ terms [] (by simp [mapKeys])
  intro m a hm
  by_cases hx : normalizeTerm a = ""
  · simpa [hx] using hm
  · have : (let s := normalizeTerm a;
        if s == "" then m else jsSet m s ((jsGet m s).getD 0 + 1)) =
        jsSet m (normalizeTerm a) ((jsGet m (normalizeTerm a)).getD 0 + 1) := by
      simp [hx]
    rw [this]
    exact jsSet_keys_nodup _ _ hm

theorem docTF_keys_ne_empty (terms : List String) :
    ∀ q ∈ docTF terms, ¬q.1 = "" := by
  rw [docTF]
  refine foldl_entries_pred _ _ ?_ terms [] (by simp)
  intro m a hm
  by_cases hx : normalizeTerm a = ""
  · simpa [hx] using hm
  · have : (let s := normalizeTerm a;
        if s == "" then m else jsSet m s ((jsGet m s).getD 0 + 1)) =
        jsSet m (normalizeTerm a) ((jsGet m (normalizeTerm a)).getD 0 + 1) := by
      simp [hx]
    rw [this]
    intro q hq
    rcases jsSet_mem_sub hq with h | h
    · exact hm q h
    · rw [h]
      exact hx

/-! ## The `tfidfScores` accumulation -/

theorem tfidf_inner_untouched {S : Type} [AddCommMonoid S]
    (score : Nat → Nat → Nat → S) (docs : List DocEntry) (mdf : Nat)
    (E : List (String × Nat)) :
    ∀ (sc : List (String × S)) (t : String), t ∉ mapKeys E →
      jsGet (E.foldl (fun sc p =>
        let df := dfOf docs p.1
        if df < mdf then sc
        else jsSet sc p.1 ((jsGet sc p.1).getD 0 + score p.2 df docs.length)) sc) t =
      jsGet sc t := by
  induction E with
  | nil => intro sc t _; rfl
  | cons p E' ih =>
      intro sc t ht
      rw [List.foldl_cons]
      have ht' : t ∉ mapKeys E' := fun h => ht (List.mem_cons_of_mem _ h)
      have htp : ¬t = p.1 := by
        intro h
        exact ht (h ▸ List.mem_cons_self _ _)
      by_cases hdf : dfOf docs p.1 < mdf
      · have hstep : (let df := dfOf docs p.1;
            if df < mdf then sc
            else jsSet sc p.1 ((jsGet sc p.1).getD 0 + score p.2 df docs.length)) = sc := by
          simp [hdf]
        rw [hstep, ih sc t ht']
      · have hstep : (let df := dfOf docs p.1;
            if df < mdf then sc
            else jsSet sc p.1 ((jsGet sc p.1).getD 0 + score p.2 df docs.length)) =
            jsSet sc p.1 ((jsGet sc p.1).getD 0 + score p.2 (dfOf docs p.1) docs.length) := by
          simp [hdf]
        rw [hstep, ih _ t ht', jsGet_jsSet, if_neg htp]

theorem tfidf_inner_get {S : Type} [AddCommMonoid S]
    (score : Nat → Nat → Nat → S) (docs : List DocEntry) (mdf : Nat)
    (E : List (String × Nat)) (hE : (mapKeys E).Nodup) :
    ∀ (sc : List (String × S)) (t : String),
      jsGet (E.foldl (fun sc p =>
        let df := dfOf docs p.1
        if df < mdf then sc
        else jsSet sc p.1 ((jsGet sc p.1).getD 0 + score p.2 df docs.length)) sc) t =
      match jsGet E t with
      | some f =>
          if dfOf docs t < mdf then jsGet sc t
          else some ((jsGet sc t).getD 0 + score f (dfOf docs t) docs.length)
      | none => jsGet sc t := by
  induction E with
  | nil => intro sc t; rfl
  | cons p E' ih =>
      intro sc t
      rw [List.foldl_cons]
      rw [mapKeys, List.map_cons, List.nodup_cons] at hE
      by_cases htp : t = p.1
      · have hpE' : t ∉ mapKeys E' := htp ▸ hE.1
        have hget : jsGet (p :: E') t = some p.2 := by
          simp [jsGet, htp]
        rw [hget]
        by_cases hdf : dfOf docs t < mdf
        · have hstep : (let df := dfOf docs p.1;
              if df < mdf then sc
              else jsSet sc p.1 ((jsGet sc p.1).getD 0 + score p.2 df docs.length)) = sc := by
            simp [htp ▸ hdf]
          rw [hstep]
          dsimp only
          rw [if_pos hdf]
          exact tfidf_inner_untouched score docs mdf E' sc t hpE'
        · have hstep : (let df := dfOf docs p.1;
              if df < mdf then sc
              else jsSet sc p.1 ((jsGet sc p.1).getD 0 + score p.2 df docs.length)) =
              jsSet sc p.1 ((jsGet sc p.1).getD 0 + score p.2 (dfOf docs p.1) docs.length) := by
            simp [htp ▸ hdf]
          rw [hstep]
          dsimp only
          rw [if_neg hdf,
            tfidf_inner_untouched score docs mdf E' _ t hpE', jsGet_jsSet, if_pos htp, htp]
      · have hget : jsGet (p :: E') t = jsGet E' t := by
          have : ¬p.1 = t := fun h => htp h.symm
          simp [jsGet, this]
        rw [hget]
        by_cases hdf : dfOf docs p.1 < mdf
        · have hstep : (let df := dfOf docs p.1;
              if df < mdf then sc
              else jsSet sc p.1 ((jsGet sc p.1).getD 0 + score p.2 df docs.length)) = sc := by
            simp [hdf]
          rw [hstep, ih hE.2]
        · have hstep : (let df := dfOf docs p.1;
              if df < mdf then sc
              else jsSet sc p.1 ((jsGet sc p.1).getD 0 + score p.2 df docs.length)) =
              jsSet sc p.1 ((jsGet sc p.1).getD 0 + score p.2 (dfOf docs p.1) docs.length) := by
            simp [hdf]
          rw [hstep, ih hE.2]
          have hsc : jsGet (jsSet sc p.1
              ((jsGet sc p.1).getD 0 + score p.2 (dfOf docs p.1) docs.length)) t = jsGet sc t := by
            rw [jsGet_jsSet, if_neg htp]
          cases hE' : jsGet E' t with
          | none => simp only [hsc]
          | some f => simp only [hsc]

theorem jsGet_empty_key {β : Type} (m : List (String × β))
    (hk : ∀ p ∈ m, ¬p.1 = "") : jsGet m "" = none := by
  induction m with
  | nil => rfl
  | cons p ms ih =>
      have h1 := hk p (List.mem_cons_self _ _)
      simp only [jsGet, if_neg (fun hh => h1 (beq_iff_eq.mp hh))]
      exact ih (fun q hq => hk q (List.mem_cons_of_mem _ hq))

theorem empty_not_mem_docNorms (d : DocEntry) : "" ∉ docNorms d := by
  intro h
  rcases List.mem_filter.mp h with ⟨_, h2⟩
  simp at h2

theorem docTF_get_iff (d : DocEntry) (t : String) :
    jsGet (docTF d.terms) t =
      if (docNorms d).contains t = true
      then some ((d.terms.map normalizeTerm).count t) else none := by
  by_cases ht : t = ""
  · subst ht
    have hc : ¬(docNorms d).contains "" = true := by
      intro h
      exact empty_not_mem_docNorms d (List.elem_iff.mp h)
    rw [if_neg hc]
    exact jsGet_empty_key _ (docTF_keys_ne_empty d.terms)
  · rw [docTF_get d.terms t ht]
    by_cases hm : t ∈ d.terms.map normalizeTerm
    · have hcnt : ¬(d.terms.map normalizeTerm).count t = 0 := by
        rw [List.count_eq_zero]
        exact fun h => h hm
      rw [if_neg hcnt,
        if_pos (List.elem_iff.mpr ((mem_docNorms d t).mpr ⟨ht, hm⟩))]
    · have hcnt : (d.terms.map normalizeTerm).count t = 0 := List.count_eq_zero.mpr hm
      rw [if_pos hcnt,
        if_neg (fun h => hm ((mem_docNorms d t).mp (List.elem_iff.mp h)).2)]

theorem tfidf_outer_get {S : Type} [AddCommMonoid S]
    (score : Nat → Nat → Nat → S) (docs : List DocEntry) (mdf : Nat)
    (L : List DocEntry) :
    ∀ (sc : List (String × S)) (t : String),
      jsGet (List.foldl (fun sc d =>
        (docTF d.terms).foldl (fun sc p =>
          let df := dfOf docs p.1
          if df < mdf then sc
          else jsSet sc p.1 ((jsGet sc p.1).getD 0 + score p.2 df docs.length)) sc) sc L) t =
      if (L.filter (fun d => (docNorms d).contains t)).length = 0 ∨ dfOf docs t < mdf
      then jsGet sc t
      else some ((jsGet sc t).getD 0 +
        ((L.filter (fun d => (docNorms d).contains t)).map
          (fun d => score ((d.terms.map normalizeTerm).count t) (dfOf docs t) docs.length)).sum) := by
  induction L with
  | nil => intro sc t; simp
  | cons d L' ih =>
      intro sc t
      rw [List.foldl_cons]
      have hinner := tfidf_inner_get score docs mdf (docTF d.terms)
        (docTF_keys_nodup d.terms) sc t
      by_cases hc : (docNorms d).contains t = true
      · have hget : jsGet (docTF d.terms) t =
            some ((d.terms.map normalizeTerm).count t) := by
          rw [docTF_get_iff, if_pos hc]
        rw [hget] at hinner
        dsimp only at hinner
        have hflt : (List.filter (fun d => (docNorms d).contains t) (d :: L')) =
            d :: L'.filter (fun d => (docNorms d).contains t) := by
          rw [List.filter_cons, if_pos hc]
        rw [ih, hflt]
        by_cases hdf : dfOf docs t < mdf
        · rw [if_pos hdf] at hinner
          rw [if_pos (Or.inr hdf), if_pos (Or.inr hdf), hinner]
        · rw [if_neg hdf] at hinner
          by_cases h0 : (L'.filter (fun d => (docNorms d).contains t)).length = 0
          · rw [if_pos (Or.inl h0), hinner,
              if_neg (not_or.mpr ⟨by rw [List.length_cons]; exact Nat.succ_ne_zero _, hdf⟩)]
            rw [List.length_eq_zero.mp h0]
            simp
          · rw [if_neg (not_or.mpr ⟨h0, hdf⟩), hinner,
              if_neg (not_or.mpr ⟨by rw [List.length_cons]; exact Nat.succ_ne_zero _, hdf⟩),
              List.map_cons, List.sum_cons]
            simp only [Option.getD_some, Option.some.injEq]
            rw [add_assoc]
      · have hget : jsGet (docTF d.terms) t = none := by
          rw [docTF_get_iff, if_neg hc]
        rw [hget] at hinner
        dsimp only at hinner
        have hflt : (List.filter (fun d => (docNorms d).contains t) (d :: L')) =
            L'.filter (fun d => (docNorms d).contains t) := by
          rw [List.filter_cons, if_neg hc]
        rw [ih, hflt, hinner]

/-- What the accumulated score map holds at each normalized term: `none`
when the term occurs in no document or its document frequency is below the
threshold, otherwise the sum over the documents containing the term of the
per-document scores. -/
theorem tfidfScores_get {S : Type} [AddCommMonoid S]
    (score : Nat → Nat → Nat → S) (docs : List DocEntry) (mdf : Nat) (t : String) :
    jsGet (tfidfScores score docs mdf) t =
      if (docs.filter (fun d => (docNorms d).contains t)).length = 0 ∨ dfOf docs t < mdf
      then none
      else some (((docs.filter (fun d => (docNorms d).contains t)).map
        (fun d => score ((d.terms.map normalizeTerm).count t) (dfOf docs t) docs.length)).sum) := by
  rw [tfidfScores, tfidf_outer_get score docs mdf docs [] t]
  by_cases h : (docs.filter (fun d => (docNorms d).contains t)).length = 0 ∨ dfOf docs t < mdf
  · rw [if_pos h, if_pos h]
    rfl
  · rw [if_neg h, if_neg h]
    simp [jsGet]

/-! ## Sorting facts -/

theorem sortByScoreDesc_sorted {S : Type} [LinearOrder S] (l : List (String × S)) :
    (sortByScoreDesc l).Sorted (fun a b => b.2 ≤ a.2) := by
  have h := @List.sorted_mergeSort (String × S)
    (fun a b => decide (b.2 ≤ a.2))
    (fun a b c hab hbc => by
      simp only [decide_eq_true_eq] at hab hbc ⊢
      exact le_trans hbc hab)
    (fun a b => by
      simp only [Bool.or_eq_true, decide_eq_true_eq]
      exact le_total b.2 a.2)
    l
  exact h.imp (fun hab => of_decide_eq_true hab)

theorem sortByScoreDesc_perm {S : Type} [LinearOrder S] (l : List (String × S)) :
    (sortByScoreDesc l).Perm l :=
  List.mergeSort_perm l _

/-! ## Surface map and canonicalization -/

theorem surfaceMap_keys_nodup (docs : List DocEntry) :
    (mapKeys (surfaceMapOf docs)).Nodup := by
  rw [surfaceMapOf]
  refine foldl_keys_nodup _ ?_ docs [] (by simp [mapKeys])
  intro sm d hsm
  refine foldl_keys_nodup _ ?_ d.terms sm hsm
  intro m surf hm
  by_cases hx : normalizeTerm surf = ""
  · simpa [hx] using hm
  · have : (let norm := normalizeTerm surf;
        if norm == "" then m
        else
          let mm := (jsGet m norm).getD []
          jsSet m norm (jsSet mm surf ((jsGet mm surf).getD 0 + 1))) =
        jsSet m (normalizeTerm surf)
          (jsSet ((jsGet m (normalizeTerm surf)).getD []) surf
            ((jsGet ((jsGet m (normalizeTerm surf)).getD []) surf).getD 0 + 1)) := by
      simp [hx]
    rw [this]
    exact jsSet_keys_nodup _ _ hm

theorem surfaceMap_entries (docs : List DocEntry) :
    ∀ q ∈ surfaceMapOf docs, ∀ p ∈ q.2, ¬p.1 = "" ∧ 0 < p.2 := by
  rw [surfaceMapOf]
  refine foldl_entries_pred _ _ ?_ docs [] (by simp)
  intro sm d hsm
  refine foldl_entries_pred _ _ ?_ d.terms sm hsm
  intro m surf hm
  by_cases hx : normalizeTerm surf = ""
  · simpa [hx] using hm
  · have he : (let norm := normalizeTerm surf;
        if norm == "" then m
        else
          let mm := (jsGet m norm).getD []
          jsSet m norm (jsSet mm surf ((jsGet mm surf).getD 0 + 1))) =
        jsSet m (normalizeTerm surf)
          (jsSet ((jsGet m (normalizeTerm surf)).getD []) surf
            ((jsGet ((jsGet m (normalizeTerm surf)).getD []) surf).getD 0 + 1)) := by
      simp [hx]
    rw [he]
    intro q hq
    rcases jsSet_mem_sub hq with h | h
    · exact hm q h
    · intro p hp
      rw [h] at hp
      have hsurf : ¬surf = "" := by
        intro hs
        rw [hs] at hx
        exact hx rfl
      rcases jsSet_mem_sub hp with h' | h'
      · cases hg : jsGet m (normalizeTerm surf) with
        | none =>
            rw [hg] at h'
            simp at h'
        | some m0 =>
            rw [hg] at h'
            exact hm (normalizeTerm surf, m0) (jsGet_mem hg) p h'
      · rw [h']
        exact ⟨hsurf, Nat.succ_pos _⟩

theorem mapFold_untouched {β γ : Type} (g : String → β → γ) (A : List (String × β)) :
    ∀ (c : List (String × γ)) (t : String), t ∉ mapKeys A →
      jsGet (A.foldl (fun c q => jsSet c q.1 (g q.1 q.2)) c) t = jsGet c t := by
  induction A with
  | nil => intro c t _; rfl
  | cons q A' ih =>
      intro c t ht
      rw [List.foldl_cons]
      have ht' : t ∉ mapKeys A' := fun h => ht (List.mem_cons_of_mem _ h)
      have htq : ¬t = q.1 := fun h => ht (h ▸ List.mem_cons_self _ _)
      rw [ih _ t ht', jsGet_jsSet, if_neg htq]

theorem mapFold_get {β γ : Type} (g : String → β → γ) (A : List (String × β))
    (hA : (mapKeys A).Nodup) :
    ∀ (c : List (String × γ)) (t : String),
      jsGet (A.foldl (fun c q => jsSet c q.1 (g q.1 q.2)) c) t =
      match jsGet A t with
      | some m => some (g t m)
      | none => jsGet c t := by
  induction A with
  | nil => intro c t; rfl
  | cons q A' ih =>
      intro c t
      rw [List.foldl_cons]
      rw [mapKeys, List.map_cons, List.nodup_cons] at hA
      by_cases htq : t = q.1
      · have hqA' : t ∉ mapKeys A' := htq ▸ hA.1
        rw [mapFold_untouched g A' _ t hqA']
        have hget : jsGet (q :: A') t = some q.2 := by
          simp [jsGet, htq]
        rw [hget, jsGet_jsSet, if_pos htq, htq]
      · have hget : jsGet (q :: A') t = jsGet A' t := by
          have : ¬q.1 = t := fun h => htq h.symm
          simp [jsGet, this]
        rw [hget, ih hA.2]
        cases hA' : jsGet A' t with
        | none =>
            dsimp only
            rw [jsGet_jsSet, if_neg htq]
        | some m => dsimp only

theorem canonicalizeCorpus_get (docs : List DocEntry) (t : String) :
    jsGet (canonicalizeCorpus docs) t =
      match jsGet (surfaceMapOf docs) t with
      | some m => some (if (selLoop m).1 == "" then t else (selLoop m).1)
      | none => none := by
  have he : canonicalizeCorpus docs =
      (surfaceMapOf docs).foldl (fun c q => jsSet c q.1
        (if (selLoop q.2).1 == "" then q.1 else (selLoop q.2).1)) [] := rfl
  rw [he, mapFold_get (fun k m => if (selLoop m).1 == "" then k else (selLoop m).1)
    (surfaceMapOf docs) (surfaceMap_keys_nodup docs) [] t]
  cases jsGet (surfaceMapOf docs) t <;> rfl

/-- The `canonicalForm` helper inside `computeTfidfEnhanced` agrees pointwise with the
`canonicalizeCorpus` map (defaulting to the normalized term itself off the
corpus). -/
theorem canonicalFormFn_eq (docs : List DocEntry) (t : String) :
    canonicalFormFn docs t = (jsGet (canonicalizeCorpus docs) t).getD t := by
  rw [canonicalFormFn, canonicalizeCorpus_get]
  cases h : jsGet (surfaceMapOf docs) t with
  | none => rfl
  | some m => rfl

/-! ## The selection loop picks the most frequent surface form, ties broken
by shorter length -/

theorem selStep_le (b p : String × Nat) : b.2 ≤ (selStep b p).2 := by
  rw [selStep]
  split
  · rename_i hc
    simp only [Bool.or_eq_true, Bool.and_eq_true, decide_eq_true_eq, beq_iff_eq] at hc
    rcases hc with hc | hc
    · exact le_of_lt hc
    · exact le_of_eq hc.1.symm
  · exact le_rfl

theorem selStep_mem (b p : String × Nat) : selStep b p = b ∨ selStep b p = p := by
  rw [selStep]
  split
  · right; rfl
  · left; rfl

theorem selLoop_go (E : List (String × Nat)) :
    ∀ b : String × Nat, ¬b.1 = "" → 0 < b.2 →
      (∀ p ∈ E, ¬p.1 = "" ∧ 0 < p.2) →
      (E.foldl selStep b = b ∨ E.foldl selStep b ∈ E) ∧
      b.2 ≤ (E.foldl selStep b).2 ∧
      (∀ p ∈ E, p.2 ≤ (E.foldl selStep b).2) ∧
      (b.2 = (E.foldl selStep b).2 →
        (E.foldl selStep b).1.data.length ≤ b.1.data.length) ∧
      (∀ p ∈ E, p.2 = (E.foldl selStep b).2 →
        (E.foldl selStep b).1.data.length ≤ p.1.data.length) := by
  induction E with
  | nil =>
      intro b hb1 hb2 _
      refine ⟨Or.inl rfl, le_rfl, by simp, fun _ => le_rfl, by simp⟩
  | cons p E' ih =>
      intro b hb1 hb2 hE
      have hp := hE p (List.mem_cons_self _ _)
      have hE' : ∀ q ∈ E', ¬q.1 = "" ∧ 0 < q.2 :=
        fun q hq => hE q (List.mem_cons_of_mem _ hq)
      rw [List.foldl_cons]
      by_cases hc : (p.2 > b.2 ∨ (p.2 = b.2 ∧ (b.1 = "" ∨ p.1.data.length < b.1.data.length)))
      · have hstep : selStep b p = p := by
          rw [selStep, if_pos]
          simp only [Bool.or_eq_true, Bool.and_eq_true, decide_eq_true_eq, beq_iff_eq]
          exact hc
        rw [hstep]
        obtain ⟨ihm, ihb, ihall, ihlenb, ihlenall⟩ := ih p hp.1 hp.2 hE'
        have hble : b.2 ≤ p.2 := by
          rcases hc with hc | hc
          · exact le_of_lt hc
          · exact le_of_eq hc.1.symm
        refine ⟨?_, le_trans hble ihb, ?_, ?_, ?_⟩
        · rcases ihm with h | h
          · right; rw [h]; exact List.mem_cons_self _ _
          · right; exact List.mem_cons_of_mem _ h
        · intro q hq
          rcases List.mem_cons.mp hq with h | h
          · rw [h]; exact ihb
          · exact ihall q h
        · intro hbeq
          rcases hc with hc | hc
          · exact absurd (lt_of_lt_of_le hc ihb) (by rw [← hbeq]; exact lt_irrefl _)
          · rcases hc.2 with h | h
            · exact absurd h hb1
            · exact le_trans (ihlenb (by rw [hc.1]; exact hbeq)) (le_of_lt h)
        · intro q hq hqeq
          rcases List.mem_cons.mp hq with h | h
          · rw [h] at hqeq ⊢
            exact ihlenb hqeq
          · exact ihlenall q h hqeq
      · have hstep : selStep b p = b := by
          rw [selStep, if_neg]
          simp only [Bool.or_eq_true, Bool.and_eq_true, decide_eq_true_eq, beq_iff_eq]
          exact hc
        rw [hstep]
        obtain ⟨ihm, ihb, ihall, ihlenb, ihlenall⟩ := ih b hb1 hb2 hE'
        push_neg at hc
        have hple : p.2 ≤ b.2 := hc.1
        refine ⟨?_, ihb, ?_, ihlenb, ?_⟩
        · rcases ihm with h | h
          · left; exact h
          · right; exact List.mem_cons_of_mem _ h
        · intro q hq
          rcases List.mem_cons.mp hq with h | h
          · rw [h]; exact le_trans hple ihb
          · exact ihall q h
        · intro q hq hqeq
          rcases List.mem_cons.mp hq with h | h
          · rw [h] at hqeq ⊢
            have hpb : p.2 = b.2 := le_antisymm hple (by rw [hqeq]; exact ihb)
            have hblen : b.1.data.length ≤ p.1.data.length := (hc.2 hpb).2
            exact le_trans (ihlenb (by rw [← hpb]; exact hqeq)) hblen
          · exact ihlenall q h hqeq

/-- Specification of the selection loop on a non-empty surface-entry list
with positive counts and non-empty surfaces: it returns an entry of the
list whose count is maximal, and whose surface length is minimal among the
entries achieving that count. -/
theorem selLoop_spec (E : List (String × Nat))
    (hE : ∀ p ∈ E, ¬p.1 = "" ∧ 0 < p.2) (hne : E ≠ []) :
    selLoop E ∈ E ∧ (∀ p ∈ E, p.2 ≤ (selLoop E).2) ∧
    (∀ p ∈ E, p.2 = (selLoop E).2 →
      (selLoop E).1.data.length ≤ p.1.data.length) := by
  cases E with
  | nil => exact absurd rfl hne
  | cons p E' =>
      have hp := hE p (List.mem_cons_self _ _)
      have hE' : ∀ q ∈ E', ¬q.1 = "" ∧ 0 < q.2 :=
        fun q hq => hE q (List.mem_cons_of_mem _ hq)
      have hstep : selStep ("", 0) p = p := by
        rw [selStep, if_pos]
        simp only [Bool.or_eq_true, decide_eq_true_eq]
        left
        exact hp.2
      rw [selLoop, List.foldl_cons, hstep]
      obtain ⟨ihm, ihb, ihall, ihlenb, ihlenall⟩ := selLoop_go E' p hp.1 hp.2 hE'
      refine ⟨?_, ?_, ?_⟩
      · rcases ihm with h | h
        · rw [h]; exact List.mem_cons_self _ _
        · exact List.mem_cons_of_mem _ h
      · intro q hq
        rcases List.mem_cons.mp hq with h | h
        · rw [h]; exact ihb
        · exact ihall q h
      · intro q hq hqeq
        rcases List.mem_cons.mp hq with h | h
        · rw [h] at hqeq ⊢
          exact ihlenb hqeq
        · exact ihlenall q h hqeq

/-! ## Character and trimming facts -/

theorem toLower_eq_self (c : Char) (h : ¬(c.toNat ≥ 65 ∧ c.toNat ≤ 90)) :
    c.toLower = c := by
  simp only [Char.toLower]
  exact if_neg h

theorem toLower_id_lowerAZ (c : Char) (h : lowerAZ c = true) : c.toLower = c := by
  rw [lowerAZ, Bool.and_eq_true, decide_eq_true_eq, decide_eq_true_eq] at h
  have h1 : 97 ≤ c.toNat := h.1
  exact toLower_eq_self c (by omega)

theorem toLower_id_digit (c : Char) (h : digitChar c = true) : c.toLower = c := by
  rw [digitChar, Bool.and_eq_true, decide_eq_true_eq, decide_eq_true_eq] at h
  have h1 : c.toNat ≤ 57 := h.2
  exact toLower_eq_self c (by omega)

theorem toLower_id_ws (c : Char) (h : jsWsChar c = true) : c.toLower = c := by
  rw [jsWsChar] at h
  simp only [Bool.or_eq_true, beq_iff_eq] at h
  rcases h with ((((h | h) | h) | h) | h) | h <;> subst h <;> decide

theorem toLower_id_clean (c : Char)
    (h : (lowerAZ c || digitChar c || jsWsChar c) = true) : c.toLower = c := by
  simp only [Bool.or_eq_true] at h
  rcases h with (h | h) | h
  · exact toLower_id_lowerAZ c h
  · exact toLower_id_digit c h
  · exact toLower_id_ws c h

theorem dropWhile_head_false {α : Type} {p : α → Bool} :
    ∀ (l : List α) (x : α) (xs : List α), l.dropWhile p = x :: xs → p x = false := by
  intro l
  induction l with
  | nil => intro x xs h; simp at h
  | cons c rest ih =>
      intro x xs h
      rw [List.dropWhile_cons] at h
      by_cases hc : p c = true
      · rw [if_pos hc] at h
        exact ih x xs h
      · rw [if_neg hc] at h
        have : c = x := (List.cons.injEq _ _ _ _ ▸ h).1
        rw [← this]
        exact Bool.eq_false_iff.mpr hc

theorem dropWhile_eq_self_of_head {α : Type} (p : α → Bool) (l : List α)
    (h : ∀ x xs, l = x :: xs → p x = false) : l.dropWhile p = l := by
  cases l with
  | nil => rfl
  | cons x xs =>
      rw [List.dropWhile_cons, if_neg]
      rw [h x xs rfl]
      simp

theorem trimChars_head_false (l : List Char) (x : Char) (xs : List Char)
    (h : trimChars l = x :: xs) : jsWsChar x = false := by
  rw [trimChars] at h
  obtain ⟨pre, hpre⟩ :=
    @List.dropWhile_suffix Char ((l.dropWhile jsWsChar).reverse) jsWsChar
  have hhead : ((l.dropWhile jsWsChar).reverse.dropWhile jsWsChar).reverse.head? =
      some x := by
    rw [h]
    rfl
  rw [List.head?_reverse] at hhead
  have hlast : (l.dropWhile jsWsChar).reverse.getLast? = some x := by
    rw [← hpre, List.getLast?_append, hhead]
    rfl
  rw [List.getLast?_reverse] at hlast
  cases hA : l.dropWhile jsWsChar with
  | nil => rw [hA] at hlast; simp at hlast
  | cons a as =>
      rw [hA] at hlast
      simp only [List.head?_cons, Option.some.injEq] at hlast
      rw [← hlast]
      exact dropWhile_head_false l a as hA

theorem trimChars_getLast_false (l : List Char) (x : Char)
    (h : (trimChars l).getLast? = some x) : jsWsChar x = false := by
  rw [trimChars, List.getLast?_reverse] at h
  cases hB : (l.dropWhile jsWsChar).reverse.dropWhile jsWsChar with
  | nil => rw [hB] at h; simp at h
  | cons b bs =>
      rw [hB] at h
      simp only [List.head?_cons, Option.some.injEq] at h
      rw [← h]
      exact dropWhile_head_false _ b bs hB

theorem trimChars_idem (l : List Char) : trimChars (trimChars l) = trimChars l := by
  have h1 : (trimChars l).dropWhile jsWsChar = trimChars l :=
    dropWhile_eq_self_of_head _ _ (fun x xs h => trimChars_head_false l x xs h)
  have h2 : (trimChars l).reverse.dropWhile jsWsChar = (trimChars l).reverse := by
    refine dropWhile_eq_self_of_head _ _ (fun x xs h => ?_)
    have : (trimChars l).reverse.head? = some x := by rw [h]; rfl
    rw [List.head?_reverse] at this
    exact trimChars_getLast_false l x this
  conv_lhs => rw [trimChars, h1, h2, List.reverse_reverse]

theorem mem_trimChars_sub (l : List Char) (c : Char) (h : c ∈ trimChars l) : c ∈ l := by
  rw [trimChars] at h
  rw [List.mem_reverse] at h
  have h2 := (@List.dropWhile_suffix Char _ jsWsChar).subset h
  rw [List.mem_reverse] at h2
  exact (@List.dropWhile_suffix Char _ jsWsChar).subset h2

/-! ## `cleanTerm` facts (the pre-stemming phase of `normalizeTerm`) -/

theorem cleanTerm_chars (t : String) :
    ∀ c ∈ (cleanTerm t).data, (lowerAZ c || digitChar c || jsWsChar c) = true := by
  intro c hc
  have hc' : c ∈ trimChars ((lowerChars t.data).filter
      (fun c => lowerAZ c || digitChar c || jsWsChar c)) := hc
  have := mem_trimChars_sub _ _ hc'
  exact (List.mem_filter.mp this).2

/-- The cleanup phase of `normalizeTerm` is idempotent. -/
theorem cleanTerm_idem (t : String) : cleanTerm (cleanTerm t) = cleanTerm t := by
  have hmap : lowerChars (cleanTerm t).data = (cleanTerm t).data := by
    rw [lowerChars]
    have : ∀ c ∈ (cleanTerm t).data, c.toLower = c :=
      fun c hc => toLower_id_clean c (cleanTerm_chars t c hc)
    calc (cleanTerm t).data.map Char.toLower
        = (cleanTerm t).data.map id := List.map_congr_left this
      _ = (cleanTerm t).data := List.map_id _
  have hfil : ((cleanTerm t).data.filter
      (fun c => lowerAZ c || digitChar c || jsWsChar c)) = (cleanTerm t).data :=
    List.filter_eq_self.mpr (cleanTerm_chars t)
  show (⟨trimChars ((lowerChars (cleanTerm t).data).filter
      (fun c => lowerAZ c || digitChar c || jsWsChar c))⟩ : String) = cleanTerm t
  rw [hmap, hfil]
  show (⟨trimChars (cleanTerm t).data⟩ : String) = cleanTerm t
  have hdata : (cleanTerm t).data = trimChars ((lowerChars t.data).filter
      (fun c => lowerAZ c || digitChar c || jsWsChar c)) := rfl
  rw [hdata, trimChars_idem]
  rfl

/-! ## Tokenization runs and syllable counting -/

theorem runsGo_chars {p : Char → Bool} (l : List Char) :
    ∀ cur, (∀ c ∈ cur, p c = true) →
      ∀ w ∈ runsGo p cur l, w ≠ [] ∧ ∀ c ∈ w, p c = true ∧ (c ∈ cur ∨ c ∈ l) := by
  induction l with
  | nil =>
      intro cur hcur w hw
      rw [runsGo] at hw
      by_cases hc : cur.isEmpty = true
      · rw [if_pos hc] at hw
        simp at hw
      · rw [if_neg hc] at hw
        rw [List.mem_singleton] at hw
        subst hw
        refine ⟨?_, fun c hc' => ?_⟩
        · intro hnil
          rw [List.reverse_eq_nil_iff] at hnil
          rw [hnil] at hc
          exact hc rfl
        · rw [List.mem_reverse] at hc'
          exact ⟨hcur c hc', Or.inl hc'⟩
  | cons c0 rest ih =>
      intro cur hcur w hw
      rw [runsGo] at hw
      by_cases hp : p c0 = true
      · rw [if_pos hp] at hw
        have hcur' : ∀ c ∈ c0 :: cur, p c = true := by
          intro c hc
          rcases List.mem_cons.mp hc with h | h
          · rw [h]; exact hp
          · exact hcur c h
        obtain ⟨hne, hall⟩ := ih (c0 :: cur) hcur' w hw
        refine ⟨hne, fun c hc => ?_⟩
        obtain ⟨hpc, hor⟩ := hall c hc
        refine ⟨hpc, ?_⟩
        rcases hor with h | h
        · rcases List.mem_cons.mp h with h | h
          · right; rw [h]; exact List.mem_cons_self _ _
          · left; exact h
        · right; exact List.mem_cons_of_mem _ h
      · rw [if_neg hp] at hw
        by_cases hc : cur.isEmpty = true
        · rw [if_pos hc] at hw
          obtain ⟨hne, hall⟩ := ih [] (by simp) w hw
          refine ⟨hne, fun c hcw => ?_⟩
          obtain ⟨hpc, hor⟩ := hall c hcw
          refine ⟨hpc, ?_⟩
          rcases hor with h | h
          · simp at h
          · right; exact List.mem_cons_of_mem _ h
        · rw [if_neg hc] at hw
          rcases List.mem_cons.mp hw with h | h
          · subst h
            refine ⟨?_, fun c hc' => ?_⟩
            · intro hnil
              rw [List.reverse_eq_nil_iff] at hnil
              rw [hnil] at hc
              exact hc rfl
            · rw [List.mem_reverse] at hc'
              exact ⟨hcur c hc', Or.inl hc'⟩
          · obtain ⟨hne, hall⟩ := ih [] (by simp) w h
            refine ⟨hne, fun c hcw => ?_⟩
            obtain ⟨hpc, hor⟩ := hall c hcw
            refine ⟨hpc, ?_⟩
            rcases hor with h' | h'
            · simp at h'
            · right; exact List.mem_cons_of_mem _ h'

theorem splitRuns_chars {p : Char → Bool} (l : List Char) :
    ∀ w ∈ splitRuns p l, w ≠ [] ∧ ∀ c ∈ w, p c = true ∧ c ∈ l := by
  intro w hw
  obtain ⟨hne, hall⟩ := runsGo_chars l [] (by simp) w hw
  refine ⟨hne, fun c hc => ?_⟩
  obtain ⟨hpc, hor⟩ := hall c hc
  refine ⟨hpc, ?_⟩
  rcases hor with h | h
  · simp at h
  · exact h

/-- Every word produced by the readability splitter is a non-empty string of
lowercase ASCII letters. -/
theorem readabilityWords_spec (text : String) :
    ∀ w ∈ readabilityWords text, w.data ≠ [] ∧ ∀ c ∈ w.data, lowerAZ c = true := by
  intro w hw
  rw [readabilityWords] at hw
  simp only [List.mem_map] at hw
  obtain ⟨lw, hlw, rfl⟩ := hw
  obtain ⟨hne, hall⟩ := splitRuns_chars _ lw hlw
  refine ⟨hne, fun c hc => ?_⟩
  obtain ⟨hpc, hmem⟩ := hall c hc
  simp only [List.mem_map] at hmem
  obtain ⟨c0, _, hc0⟩ := hmem
  by_cases hcase : (lowerAZ c0 || jsWsChar c0) = true
  · rw [if_pos hcase] at hc0
    subst hc0
    rcases Bool.or_eq_true _ _ ▸ hcase with h | h
    · exact h
    · rw [h] at hpc
      simp at hpc
  · rw [if_neg hcase] at hc0
    subst hc0
    simp [jsWsChar] at hpc

theorem syllFold (l : List Char) :
    ∀ (pv : Bool) (n : Nat),
      (l.foldl (fun (p : Bool × Nat) ch =>
        let isV := isAeiouy ch
        (isV, if isV && !p.1 then p.2 + 1 else p.2)) (pv, n)).2 =
      n + ((l.zip (pv :: l.map isAeiouy)).filter
        (fun q => isAeiouy q.1 && !q.2)).length := by
  induction l with
  | nil => intro pv n; simp
  | cons c rest ih =>
      intro pv n
      rw [List.foldl_cons]
      dsimp only
      rw [ih]
      have hzip : ((c :: rest).zip (pv :: (c :: rest).map isAeiouy)) =
          (c, pv) :: (rest.zip (isAeiouy c :: rest.map isAeiouy)) := by
        simp [List.zip]
      rw [hzip, List.filter_cons]
      by_cases hv : (isAeiouy c && !pv) = true
  
      · rw [if_pos (by simpa using hv), if_pos hv, List.length_cons]
        omega
      · rw [if_neg (by simpa using hv), if_neg (by simpa using hv)]

/-- On a non-empty all-lowercase-letter word, `countSyllables` computes the
vowel-run count, one less for a final `e` when the count exceeds 1, floored
at 1. -/
theorem countSyllables_eq (w : String) (hne : w.data ≠ [])
    (hch : ∀ c ∈ w.data, lowerAZ c = true) :
    countSyllables w =
      max 1 (if w.data.getLast? = some 'e' ∧ 1 < vowelRuns w.data
        then vowelRuns w.data - 1 else vowelRuns w.data) := by
  have hmap : lowerChars w.data = w.data := by
    rw [lowerChars]
    calc w.data.map Char.toLower
        = w.data.map id := List.map_congr_left
            (fun c hc => toLower_id_lowerAZ c (hch c hc))
      _ = w.data := List.map_id _
  have hfil : w.data.filter lowerAZ = w.data := List.filter_eq_self.mpr hch
  simp only [countSyllables, hmap, hfil]
  rw [if_neg (by simpa [List.isEmpty_iff] using hne)]
  rw [syllFold w.data false 0]
  have hruns : 0 + ((w.data.zip (false :: w.data.map isAeiouy)).filter
      (fun q => isAeiouy q.1 && !q.2)).length = vowelRuns w.data := by
    rw [vowelRuns]
    omega
  rw [hruns]
  by_cases hcond : w.data.getLast? = some 'e' ∧ 1 < vowelRuns w.data
  · rw [if_pos (by
      simp only [Bool.and_eq_true, beq_iff_eq, decide_eq_true_eq]
      exact hcond), if_pos hcond]
  · rw [if_neg (by
      simp only [Bool.and_eq_true, beq_iff_eq, decide_eq_true_eq]
      exact hcond), if_neg hcond]

/-! ## Remaining support lemmas -/

theorem tfidf_inner_skip {S : Type} [AddCommMonoid S]
    (score : Nat → Nat → Nat → S) (docs : List DocEntry) (mdf : Nat)
    (E : List (String × Nat)) (hE : ∀ p ∈ E, dfOf docs p.1 < mdf) :
    ∀ sc : List (String × S),
      E.foldl (fun sc p =>
        let df := dfOf docs p.1
        if df < mdf then sc
        else jsSet sc p.1 ((jsGet sc p.1).getD 0 + score p.2 df docs.length)) sc = sc := by
  induction E with
  | nil => intro sc; rfl
  | cons p E' ih =>
      intro sc
      rw [List.foldl_cons]
      have hstep : (let df := dfOf docs p.1;
          if df < mdf then sc
          else jsSet sc p.1 ((jsGet sc p.1).getD 0 + score p.2 df docs.length)) = sc := by
        simp [hE p (List.mem_cons_self _ _)]
      rw [hstep]
      exact ih (fun q hq => hE q (List.mem_cons_of_mem _ hq)) sc

theorem jsSet_ne_nil {β : Type} (m : List (String × β)) (k : String) (v : β) :
    jsSet m k v ≠ [] := by
  cases m with
  | nil => simp [jsSet]
  | cons p ms =>
      rw [jsSet]
      by_cases hp : (p.1 == k) = true
      · rw [if_pos hp]; simp
      · rw [if_neg hp]; simp

theorem surfaceMap_values_ne_nil (docs : List DocEntry) :
    ∀ q ∈ surfaceMapOf docs, q.2 ≠ [] := by
  rw [surfaceMapOf]
  refine foldl_entries_pred _ _ ?_ docs [] (by simp)
  intro sm d hsm
  refine foldl_entries_pred _ _ ?_ d.terms sm hsm
  intro m surf hm
  by_cases hx : normalizeTerm surf = ""
  · simpa [hx] using hm
  · have he : (let norm := normalizeTerm surf;
        if norm == "" then m
        else
          let mm := (jsGet m norm).getD []
          jsSet m norm (jsSet mm surf ((jsGet mm surf).getD 0 + 1))) =
        jsSet m (normalizeTerm surf)
          (jsSet ((jsGet m (normalizeTerm surf)).getD []) surf
            ((jsGet ((jsGet m (normalizeTerm surf)).getD []) surf).getD 0 + 1)) := by
      simp [hx]
    rw [he]
    intro q hq
    rcases jsSet_mem_sub hq with h | h
    · exact hm q h
    · rw [h]
      exact jsSet_ne_nil _ _ _

theorem dfOf_singleton_le_one (d : DocEntry) (t : String) : dfOf [d] t ≤ 1 := by
  rw [dfOf_eq]
  rw [List.filter_cons]
  by_cases hc : (docNorms d).contains t = true
  · rw [if_pos hc]
    simp
  · rw [if_neg hc]
    simp

/-! ## Claim theorems -/

/-- C1: for every corpus, `topK` and `minDocFreq`, `computeTfidfEnhanced`
assigns each normalized term `t` occurring in the corpus with
`df(t) ≥ minDocFreq` the accumulated score
`Σ_{documents containing t} (1 + ln f) · (ln ((N+1)/(df+1)) + 1)` (with `f`
the document's post-normalization count of `t`, `N` the document count and
`df(t)` the number of documents containing `t`); terms with
`df(t) < minDocFreq` are excluded; the returned list is sorted by score
descending and is the `topK`-prefix of a sorted permutation of the scored
entries (displayed through their canonical surface forms). -/
theorem C1_computeTfidfEnhanced_spec (docs : List DocEntry) (topK minDocFreq : Nat) :
    (∀ t : String,
      jsGet (tfidfScores tfidfScore docs minDocFreq) t =
        if (∃ d ∈ docs, t ∈ docNorms d) ∧ minDocFreq ≤ dfOf docs t
        then some (((docs.filter (fun d => (docNorms d).contains t)).map
          (fun d => tfidfScore ((d.terms.map normalizeTerm).count t)
            (dfOf docs t) docs.length)).sum)
        else none) ∧
    (∀ t : String, dfOf docs t =
      (docs.filter (fun d => (docNorms d).contains t)).length) ∧
    (computeTfidfEnhanced tfidfScore docs topK minDocFreq).Sorted
      (fun a b => b.2 ≤ a.2) ∧
    ∃ full : List (String × ℝ),
      full.Perm ((tfidfScores tfidfScore docs minDocFreq).map
        (fun p => (canonicalFormFn docs p.1, p.2))) ∧
      full.Sorted (fun a b => b.2 ≤ a.2) ∧
      computeTfidfEnhanced tfidfScore docs topK minDocFreq = full.take topK := by
  refine ⟨?_, fun t => dfOf_eq docs t, ?_, ?_⟩
  · intro t
    rw [tfidfScores_get tfidfScore docs minDocFreq t]
    have hbridge : ((docs.filter (fun d => (docNorms d).contains t)).length = 0 ∨
        dfOf docs t < minDocFreq) ↔
        ¬((∃ d ∈ docs, t ∈ docNorms d) ∧ minDocFreq ≤ dfOf docs t) := by
      rw [List.length_eq_zero, List.filter_eq_nil_iff]
      constructor
      · rintro (h | h) ⟨⟨d, hd, hmem⟩, hdf⟩
        · exact h d hd (List.elem_iff.mpr hmem)
        · omega
      · intro h
        by_cases hex : ∃ d ∈ docs, t ∈ docNorms d
        · right
          rcases Nat.lt_or_ge (dfOf docs t) minDocFreq with hlt | hge
          · exact hlt
          · exact absurd ⟨hex, hge⟩ h
        · left
          intro d hd hc
          exact hex ⟨d, hd, List.elem_iff.mp hc⟩
    by_cases hcond : (∃ d ∈ docs, t ∈ docNorms d) ∧ minDocFreq ≤ dfOf docs t
    · rw [if_pos hcond, if_neg (fun hh => (hbridge.mp hh) hcond)]
    · rw [if_neg hcond, if_pos (hbridge.mpr hcond)]
  · have hs := sortByScoreDesc_sorted ((tfidfScores tfidfScore docs minDocFreq).map
      (fun p => (canonicalFormFn docs p.1, p.2)))
    exact List.Pairwise.sublist (List.take_sublist topK _) hs
  · refine ⟨sortByScoreDesc ((tfidfScores tfidfScore docs minDocFreq).map
      (fun p : String × ℝ => (canonicalFormFn docs p.1, p.2))), sortByScoreDesc_perm _,
      sortByScoreDesc_sorted _, ?_⟩
    rfl

/-- C9: a single-document corpus scored with the default
`minDocFreq = 2` yields the empty ranking — every document frequency is at
most 1, so every term is filtered out. -/
theorem C9_singleton_corpus_empty (d : DocEntry) (topK : Nat) :
    computeTfidfEnhanced tfidfScore [d] topK 2 = [] := by
  have hsc : tfidfScores tfidfScore [d] 2 = ([] : List (String × ℝ)) := by
    rw [tfidfScores]
    rw [List.foldl_cons, List.foldl_nil]
    exact tfidf_inner_skip tfidfScore [d] 2 (docTF d.terms)
      (fun p _ => lt_of_le_of_lt (dfOf_singleton_le_one d p.1) (by omega)) []
  simp only [computeTfidfEnhanced, hsc, List.map_nil]
  simp [sortByScoreDesc]

/-- C10: the surface form displayed by `computeTfidfEnhanced` for each
normalized term is exactly the canonical form computed by
`canonicalizeCorpus` on the same corpus, and that canonical form is an
actual surface entry of maximal occurrence count whose length is minimal
among the entries achieving that count (ties broken by shorter string). -/
theorem C10_canonical_agreement (docs : List DocEntry) (topK minDocFreq : Nat) :
    computeTfidfEnhanced tfidfScore docs topK minDocFreq =
      (sortByScoreDesc ((tfidfScores tfidfScore docs minDocFreq).map
        (fun p => ((jsGet (canonicalizeCorpus docs) p.1).getD p.1, p.2)))).take topK ∧
    (∀ t m, jsGet (surfaceMapOf docs) t = some m →
      m ≠ [] ∧ selLoop m ∈ m ∧
      (∀ p ∈ m, p.2 ≤ (selLoop m).2) ∧
      (∀ p ∈ m, p.2 = (selLoop m).2 →
        (selLoop m).1.data.length ≤ p.1.data.length)) := by
  constructor
  · have hfun : (fun p : String × ℝ => (canonicalFormFn docs p.1, p.2)) =
        (fun p : String × ℝ => ((jsGet (canonicalizeCorpus docs) p.1).getD p.1, p.2)) := by
      funext p
      rw [canonicalFormFn_eq]
    simp only [computeTfidfEnhanced, hfun]
  · intro t m hget
    have hmem : (t, m) ∈ surfaceMapOf docs := jsGet_mem hget
    have hne : m ≠ [] := surfaceMap_values_ne_nil docs (t, m) hmem
    have hE : ∀ p ∈ m, ¬p.1 = "" ∧ 0 < p.2 := surfaceMap_entries docs (t, m) hmem
    obtain ⟨h1, h2, h3⟩ := selLoop_spec m hE hne
    exact ⟨hne, h1, h2, h3⟩

/-- Witness for C10: applying the theorem to the corpus of the repository's
own canonicalization test pins the selection facts at a concrete surface
map. -/
theorem C10_witness :
    ("outcom", 1).2 ≤
      (selLoop [("outcome", 3), ("outcom", 1), ("outcoming", 1)]).2 :=
  ((C10_canonical_agreement
      [⟨"d1", ["outcome", "outcome", "outcom"]⟩, ⟨"d2", ["outcoming", "outcome"]⟩]
      5 1).2 "outcom" [("outcome", 3), ("outcom", 1), ("outcoming", 1)]
      (by decide)).2.2.1 ("outcom", 1) (by decide)

/-- C3 (counterexample): `normalizeTerm` is not idempotent — the Porter
stemmer maps `famousness` to `famous`, which a second pass further reduces
to `famou` (step 1a strips the final `s`). -/
theorem C3_counterexample :
    normalizeTerm (normalizeTerm "famousness") ≠ normalizeTerm "famousness" := by
  decide

/-- C3 (amended): the cleanup phase of `normalizeTerm` is idempotent, and
`normalizeTerm` itself is idempotent on every term whose cleaned form is
pure-digit or of length at most 2 (the tokens the stemmer never touches);
full idempotence fails because stemming a stemmed output can strip
further (see the counterexample). -/
theorem C3_normalizeTerm_partial_idem (t : String)
    (h : digitsOnly (cleanTerm t) = true ∨ (cleanTerm t).data.length ≤ 2) :
    normalizeTerm (normalizeTerm t) = normalizeTerm t := by
  by_cases h0 : cleanTerm t = ""
  · have h1 : normalizeTerm t = "" := by
      simp [normalizeTerm, h0]
    rw [h1]
    decide
  · have hcond : (digitsOnly (cleanTerm t) ||
        decide ((cleanTerm t).data.length ≤ 2)) = true := by
      rcases h with h | h
      · simp [h]
      · rw [decide_eq_true h]
        simp
    have h1 : normalizeTerm t = cleanTerm t := by
      simp only [normalizeTerm]
      rw [if_neg (by simpa using h0), if_pos hcond]
    rw [h1]
    simp only [normalizeTerm, cleanTerm_idem t]
    rw [if_neg (by simpa using h0), if_pos hcond]

/-- Witness for C3's amended statement at the concrete token `"42!"`. -/
theorem C3_witness :
    (digitsOnly (cleanTerm "42!") = true ∨ (cleanTerm "42!").data.length ≤ 2) ∧
    normalizeTerm (normalizeTerm "42!") = normalizeTerm "42!" :=
  ⟨Or.inl (by decide), C3_normalizeTerm_partial_idem "42!" (Or.inl (by decide))⟩

/-- C8: for every word the readability scorer produces (a non-empty
lowercase-letter string), `countSyllables` equals the number of maximal
vowel runs (over `a e i o u y`), minus one when the word ends in `e` and
the count exceeds 1, floored at 1. -/
theorem C8_countSyllables_spec (text : String) (w : String)
    (hw : w ∈ readabilityWords text) :
    countSyllables w =
      max 1 (if w.data.getLast? = some 'e' ∧ 1 < vowelRuns w.data
        then vowelRuns w.data - 1 else vowelRuns w.data) := by
  obtain ⟨hne, hch⟩ := readabilityWords_spec text w hw
  exact countSyllables_eq w hne hch

/-- Witness for C8 at a concrete text and word. -/
theorem C8_witness :
    "hello" ∈ readabilityWords "Hello there." ∧
    countSyllables "hello" =
      max 1 (if ("hello" : String).data.getLast? = some 'e' ∧
          1 < vowelRuns ("hello" : String).data
        then vowelRuns ("hello" : String).data - 1
        else vowelRuns ("hello" : String).data) :=
  ⟨by decide, C8_countSyllables_spec "Hello there." "hello" (by decide)⟩

/-- C7: `computeReadability` is total and division-safe: the sentence count
it reports is floored at 1, and with zero words both ratios vanish, so the
scores collapse to the formulas' constant terms (no division by zero and
no exception can occur — the embedding is a total function). -/
theorem C7_computeReadability_safe (text : String) :
    1 ≤ (computeReadability text).sentenceCount ∧
    ((computeReadability text).wordCount = 0 →
      (computeReadability text).fleschReadingEase = 206835/1000 ∧
      (computeReadability text).fleschKincaidGrade = -(1559/100)) := by
  refine ⟨le_max_left _ _, fun h0 => ?_⟩
  have hn : (readabilityWords text).length = 0 := h0
  constructor
  · show (206835/1000 : ℚ) -
        1015/1000 * (((readabilityWords text).length : ℚ) /
          ((max 1 ((sentencePieces text).filter (fun s => !(s == ""))).length : Nat) : ℚ)) -
        846/10 * (if (readabilityWords text).length = 0 then 0
          else (((readabilityWords text).map countSyllables).sum : ℚ) /
            ((readabilityWords text).length : ℚ)) = 206835/1000
    rw [hn, if_pos rfl]
    norm_num
  · show (39/100 : ℚ) * (((readabilityWords text).length : ℚ) /
          ((max 1 ((sentencePieces text).filter (fun s => !(s == ""))).length : Nat) : ℚ)) +
        118/10 * (if (readabilityWords text).length = 0 then 0
          else (((readabilityWords text).map countSyllables).sum : ℚ) /
            ((readabilityWords text).length : ℚ)) - 1559/100 = -(1559/100)
    rw [hn, if_pos rfl]
    norm_num

/-- Witness for C7 at the empty text. -/
theorem C7_witness :
    1 ≤ (computeReadability "").sentenceCount ∧
    (computeReadability "").fleschReadingEase = 206835/1000 ∧
    (computeReadability "").fleschKincaidGrade = -(1559/100) :=
  ⟨(C7_computeReadability_safe "").1,
   (C7_computeReadability_safe "").2 (by decide)⟩

/-- C5: every token produced by `toWords` is non-empty, longer than one
character, contains a lowercase letter, is not a pure digit string, and is
not a stopword. -/
theorem C5_toWords_invariants (raw : String) (w : String) (hw : w ∈ toWords raw) :
    ¬w = "" ∧ 1 < w.data.length ∧ hasLowerAlpha w = true ∧
    digitsOnly w = false ∧ w ∉ EXTRA_STOPWORDS := by
  simp only [toWords] at hw
  have h5 := List.mem_filter.mp hw
  have h4 := List.mem_filter.mp h5.1
  have h3 := List.mem_filter.mp h4.1
  have h2 := List.mem_filter.mp h3.1
  have h1 := List.mem_filter.mp h2.1
  refine ⟨?_, ?_, ?_, ?_, ?_⟩
  · have := h1.2
    simp only [Bool.not_eq_eq_eq_not, Bool.not_true, beq_eq_false_iff_ne] at this
    exact this
  · exact of_decide_eq_true h2.2
  · exact h4.2
  · have := h5.2
    simp only [Bool.not_eq_eq_eq_not, Bool.not_true] at this
    exact this
  · intro hmem
    have hfalse := h3.2
    simp only [Bool.not_eq_eq_eq_not, Bool.not_true] at hfalse
    have hc : EXTRA_STOPWORDS.contains w = true := List.elem_iff.mpr hmem
    rw [hfalse] at hc
    exact Bool.false_ne_true hc

/-- Witness for C5 at a concrete text and token. -/
theorem C5_witness :
    "quick" ∈ toWords "The quick fox" ∧
    (¬("quick" : String) = "" ∧ 1 < ("quick" : String).data.length ∧
      hasLowerAlpha "quick" = true ∧ digitsOnly "quick" = false ∧
      ("quick" : String) ∉ EXTRA_STOPWORDS) :=
  ⟨by decide, C5_toWords_invariants "The quick fox" "quick" (by decide)⟩

/-- C4: the warnings of a document are exactly the five conditional blocks
in the fixed source order — missing title, missing description, missing H1,
description length outside [50,160] with the length in the message, title
length outside [15,65] with the length in the message; in particular a
document with no title, no description and no H1 yields exactly the three
missing-element warnings in that order. -/
theorem C4_warnings_order (title description : Option String) (h1 : List String) :
    (docWarnings title description h1 =
      (if jsTruthy title = true then [] else ["Missing <title>"]) ++
      (if jsTruthy description = true then [] else ["Missing meta description"]) ++
      (if h1 = [] then ["Missing H1 heading"] else []) ++
      (if jsTruthy description = true ∧ ((description.getD "").length < 50 ∨
          160 < (description.getD "").length)
        then ["Description length " ++ toString (description.getD "").length ++
          " (recommended 50-160)"] else []) ++
      (if jsTruthy title = true ∧ ((title.getD "").length < 15 ∨
          65 < (title.getD "").length)
        then ["Title length " ++ toString (title.getD "").length ++
          " (recommended 15-65)"] else [])) ∧
    docWarnings none none [] =
      ["Missing <title>", "Missing meta description", "Missing H1 heading"] := by
  constructor
  · simp only [docWarnings]
    by_cases ht : jsTruthy title = true <;>
      by_cases hd : jsTruthy description = true <;>
        by_cases hh : h1 = [] <;>
          by_cases hdl : ((description.getD "").length < 50 ∨
            160 < (description.getD "").length) <;>
            by_cases htl : ((title.getD "").length < 15 ∨
              65 < (title.getD "").length) <;>
              simp [ht, hd, hh, hdl, htl, List.length_eq_zero, List.append_assoc]
  · rfl

/-- C6: a `.json` record under the data-only directories is excluded from
all three missing-metadata summary lists even when its title, description
or H1 is absent, while its own per-document warnings still carry the
corresponding messages. -/
theorem C6_dataOnly_exclusion (rootDir : String) (docs : List DocRecord)
    (d : DocRecord) (_hd : d ∈ docs)
    (hdata : isDataOnlyJson rootDir d.filePath = true) :
    (d.filePath ∉ pagesMissingTitle docs rootDir ∧
     d.filePath ∉ pagesMissingDescription docs rootDir ∧
     d.filePath ∉ pagesMissingH1 docs rootDir) ∧
    (jsTruthy d.title = false →
      "Missing <title>" ∈ docWarnings d.title d.description d.h1) ∧
    (jsTruthy d.description = false →
      "Missing meta description" ∈ docWarnings d.title d.description d.h1) ∧
    (d.h1 = [] →
      "Missing H1 heading" ∈ docWarnings d.title d.description d.h1) := by
  refine ⟨⟨?_, ?_, ?_⟩, ?_, ?_, ?_⟩
  · intro hmem
    have := (List.mem_filter.mp hmem).2
    rw [hdata] at this
    exact absurd this (by simp)
  · intro hmem
    have := (List.mem_filter.mp hmem).2
    rw [hdata] at this
    exact absurd this (by simp)
  · intro hmem
    have := (List.mem_filter.mp hmem).2
    rw [hdata] at this
    exact absurd this (by simp)
  · intro hfalse
    simp [docWarnings, hfalse]
  · intro hfalse
    simp [docWarnings, hfalse]
  · intro hnil
    simp [docWarnings, hnil]

/-- Witness for C6 at a concrete data-only record. -/
theorem C6_witness :
    ("/r/competencies/x.json" ∉
      pagesMissingTitle [⟨"/r/competencies/x.json", none, none, []⟩] "/r") ∧
    "Missing <title>" ∈ docWarnings none none [] :=
  ⟨((C6_dataOnly_exclusion "/r" [⟨"/r/competencies/x.json", none, none, []⟩]
      ⟨"/r/competencies/x.json", none, none, []⟩ (by simp) (by decide)).1).1,
   (C6_dataOnly_exclusion "/r" [⟨"/r/competencies/x.json", none, none, []⟩]
      ⟨"/r/competencies/x.json", none, none, []⟩ (by simp) (by decide)).2.1 rfl⟩

/-- C2 (counterexample): the code classifies the absolute same-site URL
`https://keyrxng.xyz/` as external, although its host equals the audited
site's own host — `isExternal` compares against the placeholder base host
`example.com`, never against the site origin. -/
theorem C2_counterexample :
    isExternal "https://keyrxng.xyz/" = true ∧
    specClaimExternal "https://keyrxng.xyz/" = false ∧
    urlHostResolve "https://keyrxng.xyz/" "example.com" = some "keyrxng.xyz" := by
  refine ⟨by decide, by decide, by decide⟩

/-- C2 (amended): a href is classified external iff it is non-empty, does
not start with `/`, `#` or `.`, and resolves against the fixed base
`http://example.com` to a non-empty host different from `example.com`
(so same-site absolute URLs count as external, relative ones as internal);
hrefs starting with `/`, `#` or `.` are always internal. -/
theorem C2_isExternal_characterization (href : String) :
    (isExternal href = true ↔
      ¬href = "" ∧ startsWithCh href '/' = false ∧ startsWithCh href '#' = false ∧
      startsWithCh href '.' = false ∧
      ∃ h, urlHostResolve href "example.com" = some h ∧ ¬h = "" ∧
        ¬h = "example.com") ∧
    ((startsWithCh href '/' = true ∨ startsWithCh href '#' = true ∨
      startsWithCh href '.' = true) → isExternal href = false) := by
  constructor
  · rw [isExternal]
    by_cases h0 : href = ""
    · rw [if_pos (beq_iff_eq.mpr h0)]
      simp [h0]
    · rw [if_neg (fun hh => h0 (beq_iff_eq.mp hh))]
      by_cases hs : (startsWithCh href '/' || startsWithCh href '#' ||
          startsWithCh href '.') = true
      · rw [if_pos hs]
        simp only [Bool.or_eq_true] at hs
        constructor
        · intro hfalse
          exact absurd hfalse (by simp)
        · rintro ⟨_, hsl, hsh, hsd, _⟩
          rcases hs with (h | h) | h
          · rw [h] at hsl; exact absurd hsl (by simp)
          · rw [h] at hsh; exact absurd hsh (by simp)
          · rw [h] at hsd; exact absurd hsd (by simp)
      · rw [if_neg hs]
        simp only [Bool.or_eq_true, not_or] at hs
        cases hres : urlHostResolve href "example.com" with
        | none =>
            constructor
            · intro hfalse
              simp at hfalse
            · rintro ⟨_, _, _, _, h, hh, _⟩
              exact absurd hh (by simp)
        | some h =>
            constructor
            · intro htrue
              simp only [Bool.and_eq_true, Bool.not_eq_eq_eq_not, Bool.not_true,
                beq_eq_false_iff_ne] at htrue
              exact ⟨h0, Bool.not_eq_true _ ▸ hs.1.1, Bool.not_eq_true _ ▸ hs.1.2,
                Bool.not_eq_true _ ▸ hs.2, h, rfl, htrue.1, htrue.2⟩
            · rintro ⟨_, _, _, _, h', hh', hne1, hne2⟩
              have : h' = h := by
                injection hh' with hinj
                exact hinj.symm
              subst this
              simp only [Bool.and_eq_true, Bool.not_eq_eq_eq_not, Bool.not_true,
                beq_eq_false_iff_ne]
              exact ⟨hne1, hne2⟩
  · intro hs
    rw [isExternal]
    by_cases h0 : href = ""
    · rw [if_pos (beq_iff_eq.mpr h0)]
    · rw [if_neg (fun hh => h0 (beq_iff_eq.mp hh)), if_pos]
      simp only [Bool.or_eq_true]
      rcases hs with h | h | h
      · exact Or.inl (Or.inl h)
      · exact Or.inl (Or.inr h)
      · exact Or.inr h

/-- Witness for C2's amended statement: a relative href is internal, an
off-site absolute href is external, a `/`-prefixed href is internal. -/
theorem C2_witness :
    isExternal "/writing/post" = false ∧ isExternal "https://github.com/x" = true :=
  ⟨(C2_isExternal_characterization "/writing/post").2 (Or.inl (by decide)),
   (C2_isExternal_characterization "https://github.com/x").1.mpr
     ⟨by decide, by decide, by decide, by decide, "github.com", by decide,
      by decide, by decide⟩⟩

/-- Validation of the embedded stemmer and normalizer against the
repository's own vitest expectations (src tests: `Running → run`,
`tests → test`, `HTTP/2 → http2`, `a → a`). -/
theorem normalizeTerm_matches_repo_tests :
    normalizeTerm "Running" = "run" ∧ normalizeTerm "tests" = "test" ∧
    normalizeTerm "HTTP/2" = "http2" ∧ normalizeTerm "a" = "a" := by
  refine ⟨by decide, by decide, by decide, by decide⟩

/-- Validation of the link classifier on representative hrefs. -/
theorem isExternal_examples :
    isExternal "https://github.com/x" = true ∧
    isExternal "mailto:keyrxng@proton.me" = false ∧
    isExternal "foo/bar" = false := by
  refine ⟨by decide, by decide, by decide⟩
